import Mathlib

/-!
Verification development for the material-property data engine in `src/main.py`
(SKB-CADDep/Material_Library).

The numeric values of the program (Python floats) are modelled by `ℚ`, so the
arithmetic identities below are exact where Python performs approximate binary
arithmetic; string formatting `f"{x:.2f}"` is modelled by `format2` (round half
to even at the second decimal, which is what Python's fixed-point formatting
performs on the decimal value).  Python's `sorted` with a key function is a
stable sort; it is modelled by `List.insertionSort` on the key, which is also
stable, and two stable sorts with respect to the same key order coincide.
-/

/-! Batteries marks the rational-number operations `@[irreducible]`, which
blocks kernel evaluation of concrete instances; restore the default
reducibility so that `decide` can evaluate the model on concrete inputs. -/
set_option allowUnsafeReducibility true in
attribute [semireducible] Rat.mul Rat.add Rat.sub Rat.inv Rat.ofScientific

/-! ## Basic helpers: strings, digits, number formatting and parsing -/

/-- Code-point comparison of character lists: lexicographic `<`, the order
Python uses for strings. -/
def charListLt : List Char → List Char → Bool
  | [], [] => false
  | [], _ :: _ => true
  | _ :: _, [] => false
  | a :: as, b :: bs =>
    if a.toNat < b.toNat then true
    else if b.toNat < a.toNat then false
    else charListLt as bs

/-- Python string `<` (lexicographic on code points). -/
def strLt (a b : String) : Bool := charListLt a.data b.data

/-- Python string `<=`. -/
def strLe (a b : String) : Bool := strLt a b || a == b

/-- The decimal digit character for `d < 10`. -/
def digitChar (d : Nat) : Char := Char.ofNat (48 + d)

/-- Decimal digits of `n`, most significant first (`fuel` bounds the recursion;
`natStr` always supplies enough). -/
def natDigits : Nat → Nat → List Char
  | 0, _ => []
  | fuel + 1, n =>
    if n < 10 then [digitChar n] else natDigits fuel (n / 10) ++ [digitChar (n % 10)]

/-- Decimal rendering of a natural number. -/
def natStr (n : Nat) : String := ⟨natDigits (n + 1) n⟩

/-- Pad a numeral to two characters with a leading zero. -/
def pad2 (s : String) : String := if s.length < 2 then "0" ++ s else s

/-- Floor of a rational, computed on the numerator/denominator pair. -/
def qfloor (q : ℚ) : ℤ := q.num.fdiv q.den

/-- Round half to even to the nearest integer. -/
def roundHalfEven (q : ℚ) : ℤ :=
  let f := qfloor q
  let frac := q - f
  if frac < 1/2 then f
  else if frac > 1/2 then f + 1
  else if f % 2 = 0 then f else f + 1

/-- Model of Python's `f"{x:.2f}"`: fixed-point rendering with two decimal
places (round half to even applied to the exact rational value). -/
def format2 (q : ℚ) : String :=
  let n : ℤ := roundHalfEven (q * 100)
  let sign := if q < 0 then "-" else ""
  let m := n.natAbs
  sign ++ natStr (m / 100) ++ "." ++ pad2 (natStr (m % 100))

/-- Is `c` a decimal digit? -/
def isDigitCh (c : Char) : Bool := 48 ≤ c.toNat && c.toNat ≤ 57

/-- Numeric value of a digit list, most significant first. -/
def digitsVal (l : List Char) : Nat := l.foldl (fun acc c => acc * 10 + (c.toNat - 48)) 0

/-- Parse the exponent part after `e`/`E`: optional sign and digits, returning
the multiplier `10^±k`. -/
def parseExp (cs : List Char) : Option ℚ :=
  let (sgn, ds) : Bool × List Char :=
    match cs with
    | '+' :: rest => (false, rest)
    | '-' :: rest => (true, rest)
    | rest => (false, rest)
  if ds = [] ∨ ¬ ds.all isDigitCh then none
  else some (if sgn then (10 : ℚ) ^ (digitsVal ds : ℕ) |>.inv else (10 : ℚ) ^ (digitsVal ds : ℕ))

/-- Parse an unsigned decimal mantissa with optional fraction and exponent. -/
def parseMant (cs : List Char) : Option ℚ :=
  let ip := cs.takeWhile isDigitCh
  let rest := cs.dropWhile isDigitCh
  match rest with
  | [] => if ip = [] then none else some (digitsVal ip : ℚ)
  | '.' :: rest2 =>
    let fp := rest2.takeWhile isDigitCh
    let rest3 := rest2.dropWhile isDigitCh
    if ip = [] ∧ fp = [] then none
    else
      let mant : ℚ := (digitsVal ip : ℚ) + (digitsVal fp : ℚ) / (10 : ℚ) ^ fp.length
      match rest3 with
      | [] => some mant
      | e :: rest4 =>
        if e = 'e' ∨ e = 'E' then (parseExp rest4).map (fun ex => mant * ex) else none
  | e :: rest4 =>
    if (e = 'e' ∨ e = 'E') ∧ ip ≠ [] then (parseExp rest4).map (fun ex => (digitsVal ip : ℚ) * ex)
    else none

/-- Model of Python's `float(s)` on ordinary decimal literals: optional
surrounding spaces, optional sign, digits with optional fraction and exponent.
(`inf`/`nan` and underscores are not modelled; they do not occur in the data.) -/
def parseFloat (s : String) : Option ℚ :=
  let cs := ((s.data.dropWhile (· = ' ')).reverse.dropWhile (· = ' ')).reverse
  match cs with
  | '+' :: rest => parseMant rest
  | '-' :: rest => (parseMant rest).map (fun q => -q)
  | rest => parseMant rest

/-! ## Python values

A sample value, as stored in `temperature_value_pairs`, is a JSON number or a
string.  `PyVal.num` keeps the exact rational; `PyVal.str` keeps the text. -/

inductive PyVal where
  | num (q : ℚ) : PyVal
  | str (s : String) : PyVal
deriving DecidableEq

/-- Python's `float(v)` applied to a sample value: a number converts to itself,
a string goes through decimal parsing; failure models
`ValueError`/`TypeError`. -/
def pyFloat : PyVal → Option ℚ
  | .num q => some q
  | .str s => parseFloat s

/-! ## The interpolation engine

`src/main.py` contains three near-identical sample-series lookups:
`Material.get_property_at_temp` (lines 537–563),
`TempSelectionTab._get_value_from_prop_data` (lines 773–795) and
`SingleCalcTab.get_property_at_temp` (lines 1170–1199).  The series-level loop
of the first and the third is verbatim identical in the source, so they share
the helper scans below; the second converts each pair through `float` inside
the bracketing scan and skips unconvertible pairs.

A property dict is modelled by `PropData`; a missing
`"temperature_value_pairs"` key is `none`.  A falsy (`None` or empty) property
dict at the call site is modelled by passing `none` for the whole record; both
return the sentinel exactly as the source does. -/

structure PropData where
  temperature_value_pairs : Option (List (ℚ × PyVal))

/-- `sorted(pairs, key=lambda p: p[0])`: stable sort by temperature. -/
def sortPairs (l : List (ℚ × PyVal)) : List (ℚ × PyVal) :=
  List.insertionSort (fun a b => a.1 ≤ b.1) l

/-- First loop of the lookups: `for t, val in pairs: if t == temp: return val`. -/
def scanExact : List (ℚ × PyVal) → ℚ → Option PyVal
  | [], _ => none
  | (t, v) :: rest, temp => if t = temp then some v else scanExact rest temp

/-- Second loop of the lookups: update `lower_point` at every `t < temp`,
stop at the first `t > temp` setting `upper_point`. -/
def scanBracket : List (ℚ × PyVal) → ℚ → Option (ℚ × PyVal) →
    Option (ℚ × PyVal) × Option (ℚ × PyVal)
  | [], _, lower => (lower, none)
  | (t, v) :: rest, temp, lower =>
    if t < temp then scanBracket rest temp (some (t, v))
    else if t > temp then (lower, some (t, v))
    else scanBracket rest temp lower

/-- The tail of `Material.get_property_at_temp` once both bracketing points are
found: the division-by-zero guard, then
`v1 + (temp - t1) * (v2 - v1) / (t2 - t1)` formatted to two decimals.
Arithmetic on a non-numeric stored value raises `TypeError` in Python,
modelled by `Except.error`. -/
def interpolate (t1 : ℚ) (v1 : PyVal) (t2 : ℚ) (v2 : PyVal) (temp : ℚ) : Except Unit PyVal :=
  if t2 - t1 = 0 then .ok v1
  else
    match v1, v2 with
    | .num q1, .num q2 => .ok (.str (format2 (q1 + (temp - t1) * (q2 - q1) / (t2 - t1))))
    | _, _ => .error ()

/-- Series-level body of `Material.get_property_at_temp` (lines 546–563). -/
def material_valueAt (prop_data : Option PropData) (temp : ℚ) : Except Unit PyVal :=
  match prop_data with
  | none => .ok (.str "-")
  | some pd =>
    match pd.temperature_value_pairs with
    | none => .ok (.str "-")
    | some raw =>
      let pairs := sortPairs raw
      if pairs = [] then .ok (.str "-")
      else
        match scanExact pairs temp with
        | some v => .ok v
        | none =>
          match scanBracket pairs temp none with
          | (some (t1, v1), some (t2, v2)) => interpolate t1 v1 t2 v2 temp
          | _ => .ok (.str "-")

/-- Bracketing scan of `TempSelectionTab._get_value_from_prop_data`
(lines 780–789): each pair is converted with `float` first; pairs whose value
does not convert are skipped (`except (ValueError, TypeError): continue`).
The temperature is already numeric in this model, so `float(t)` is `t`. -/
def scanBracketF : List (ℚ × PyVal) → ℚ → Option (ℚ × ℚ) → Option (ℚ × ℚ) × Option (ℚ × ℚ)
  | [], _, lower => (lower, none)
  | (t, v) :: rest, temp, lower =>
    match pyFloat v with
    | none => scanBracketF rest temp lower
    | some q =>
      if t < temp then scanBracketF rest temp (some (t, q))
      else if t > temp then (lower, some (t, q))
      else scanBracketF rest temp lower

/-- `TempSelectionTab._get_value_from_prop_data` (lines 773–795).  It never
raises: unconvertible pairs are skipped in the scan and interpolation happens
on the converted floats. -/
def tempsel_valueAt (prop_data : Option PropData) (temp : ℚ) : PyVal :=
  match prop_data with
  | none => .str "-"
  | some pd =>
    match pd.temperature_value_pairs with
    | none => .str "-"
    | some raw =>
      let pairs := sortPairs raw
      if pairs = [] then .str "-"
      else
        match scanExact pairs temp with
        | some v => v
        | none =>
          match scanBracketF pairs temp none with
          | (some (t1, v1), some (t2, v2)) =>
            if t2 - t1 = 0 then .num v1
            else .str (format2 (v1 + (temp - t1) * (v2 - v1) / (t2 - t1)))
          | _ => .str "-"

/-- Series-level body of `SingleCalcTab.get_property_at_temp`
(lines 1181–1199); the loops are verbatim identical to
`Material.get_property_at_temp`'s, hence the shared scan helpers. -/
def singlecalc_valueAt (prop_data : Option PropData) (temp : ℚ) : Except Unit PyVal :=
  match prop_data with
  | none => .ok (.str "-")
  | some pd =>
    match pd.temperature_value_pairs with
    | none => .ok (.str "-")
    | some raw =>
      let pairs := sortPairs raw
      if pairs = [] then .ok (.str "-")
      else
        match scanExact pairs temp with
        | some v => .ok v
        | none =>
          match scanBracket pairs temp none with
          | (some (t1, v1), some (t2, v2)) => interpolate t1 v1 t2 v2 temp
          | _ => .ok (.str "-")

/-- Lookup in an association list modelling a Python dict of property data. -/
def plookup (o : List (String × PropData)) (k : String) : Option PropData :=
  match o with
  | [] => none
  | (k', v) :: rest => if k' = k then some v else plookup rest k

/-- The parts of a material record read by `Material.get_property_at_temp`:
the physical-property dict and, per strength category, the dict of
mechanical-property series (entries that are not property dicts are never
looked up by a property key and are omitted). -/
structure Material where
  physical_properties : List (String × PropData)
  strength_category : List (List (String × PropData))

/-- `for category in strength_category: if prop_key in category: … break`. -/
def findCategoryProp : List (List (String × PropData)) → String → Option PropData
  | [], _ => none
  | cat :: rest, key =>
    match plookup cat key with
    | some pd => some pd
    | none => findCategoryProp rest key

/-- `Material.get_property_at_temp` (lines 537–563): locate the property dict
in `physical_properties`, otherwise in the first strength category containing
the key, then run the series-level lookup. -/
def Material.get_property_at_temp (m : Material) (prop_key : String) (temp : ℚ) :
    Except Unit PyVal :=
  let prop_data :=
    match plookup m.physical_properties prop_key with
    | some pd => some pd
    | none => findCategoryProp m.strength_category prop_key
  material_valueAt prop_data temp

/-! ## Lemmas about the interpolation scans -/

instance : IsTotal (ℚ × PyVal) (fun a b => a.1 ≤ b.1) := ⟨fun a b => le_total a.1 b.1⟩

instance : IsTrans (ℚ × PyVal) (fun a b => a.1 ≤ b.1) := ⟨fun _ _ _ h1 h2 => le_trans h1 h2⟩

theorem sortPairs_sorted (l : List (ℚ × PyVal)) :
    List.Sorted (fun a b => a.1 ≤ b.1) (sortPairs l) :=
  List.sorted_insertionSort _ l

theorem sortPairs_perm (l : List (ℚ × PyVal)) : (sortPairs l).Perm l :=
  List.perm_insertionSort _ l

theorem scanExact_eq_none {temp : ℚ} :
    ∀ {l : List (ℚ × PyVal)}, (∀ p ∈ l, p.1 ≠ temp) → scanExact l temp = none
  | [], _ => rfl
  | (t, v) :: rest, h => by
    have ht : t ≠ temp := h (t, v) (List.mem_cons_self _ _)
    simp only [scanExact, if_neg ht]
    exact scanExact_eq_none fun p hp => h p (List.mem_cons_of_mem _ hp)

theorem scanExact_first {temp : ℚ} (v0 : PyVal) :
    ∀ (l1 : List (ℚ × PyVal)) (l2 : List (ℚ × PyVal)), (∀ p ∈ l1, p.1 ≠ temp) →
      scanExact (l1 ++ (temp, v0) :: l2) temp = some v0
  | [], l2, _ => by simp [scanExact]
  | (t, v) :: rest, l2, h => by
    have ht : t ≠ temp := h (t, v) (List.mem_cons_self _ _)
    simp only [List.cons_append, scanExact, if_neg ht]
    exact scanExact_first v0 rest l2 fun p hp => h p (List.mem_cons_of_mem _ hp)

theorem scanBracket_below {temp : ℚ} :
    ∀ (b : List (ℚ × PyVal)) (rest : List (ℚ × PyVal)) (acc : Option (ℚ × PyVal)),
      (∀ p ∈ b, p.1 < temp) →
      scanBracket (b ++ rest) temp acc =
        scanBracket rest temp (b.foldl (fun _ p => some p) acc)
  | [], _, _, _ => rfl
  | (t, v) :: bs, rest, acc, h => by
    have ht : t < temp := h (t, v) (List.mem_cons_self _ _)
    simp only [List.cons_append, scanBracket, if_pos ht, List.foldl_cons]
    exact scanBracket_below bs rest (some (t, v)) fun p hp => h p (List.mem_cons_of_mem _ hp)

theorem scanBracket_above {temp : ℚ} (a : List (ℚ × PyVal)) (acc : Option (ℚ × PyVal))
    (h : ∀ p ∈ a, temp < p.1) : scanBracket a temp acc = (acc, a.head?) := by
  match a with
  | [] => rfl
  | (t, v) :: rest =>
    have ht : temp < t := h (t, v) (List.mem_cons_self _ _)
    have ht' : ¬ t < temp := not_lt_of_gt ht
    simp only [scanBracket, if_neg ht', if_pos ht, List.head?_cons]

theorem foldl_some_getLast {α : Type} :
    ∀ (b : List α) (acc : Option α) (x : α), b.getLast? = some x →
      b.foldl (fun _ p => some p) acc = some x
  | [], _, _, h => by simp at h
  | [y], acc, x, h => by
    simp only [List.getLast?_singleton, Option.some.injEq] at h
    simp [List.foldl_cons, h]
  | y :: z :: rest, acc, x, h => by
    rw [List.getLast?_cons_cons] at h
    simpa only [List.foldl_cons] using foldl_some_getLast (z :: rest) (some y) x h

theorem getLast?_mem' {α : Type} :
    ∀ (l : List α) (x : α), l.getLast? = some x → x ∈ l
  | [], _, h => by simp at h
  | [y], x, h => by
    simp only [List.getLast?_singleton, Option.some.injEq] at h
    simp [h]
  | y :: z :: rest, x, h => by
    rw [List.getLast?_cons_cons] at h
    exact List.mem_cons_of_mem _ (getLast?_mem' (z :: rest) x h)

theorem mem_fst_le_getLast :
    ∀ {l : List (ℚ × PyVal)}, List.Sorted (fun a b => a.1 ≤ b.1) l →
      ∀ {x y : ℚ × PyVal}, x ∈ l → l.getLast? = some y → x.1 ≤ y.1
  | [], _, _, _, hx, _ => absurd hx (by simp)
  | [z], _, x, y, hx, hy => by
    simp only [List.getLast?_singleton, Option.some.injEq] at hy
    simp only [List.mem_singleton] at hx
    simp [hx, hy]
  | z :: w :: rest, hs, x, y, hx, hy => by
    rw [List.getLast?_cons_cons] at hy
    rcases List.mem_cons.mp hx with hxz | hxm
    · subst hxz
      have hyl : y ∈ w :: rest := getLast?_mem' _ _ hy
      exact (List.sorted_cons.mp hs).1 y hyl
    · exact mem_fst_le_getLast (List.sorted_cons.mp hs).2 hxm hy

/-- Any sorted sample list with no sample at the query temperature splits into
the block strictly below the query followed by the block strictly above it. -/
theorem sorted_split {temp : ℚ} :
    ∀ {l : List (ℚ × PyVal)}, List.Sorted (fun a b => a.1 ≤ b.1) l →
      (∀ p ∈ l, p.1 ≠ temp) →
      ∃ b a, l = b ++ a ∧ (∀ p ∈ b, p.1 < temp) ∧ (∀ p ∈ a, temp < p.1)
  | [], _, _ => ⟨[], [], rfl, by simp, by simp⟩
  | x :: rest, hs, hne => by
    have hxne : x.1 ≠ temp := hne x (List.mem_cons_self _ _)
    rcases lt_or_gt_of_ne hxne with hlt | hgt
    · obtain ⟨b, a, hsplit, hb, ha⟩ :=
        sorted_split (List.sorted_cons.mp hs).2 (fun p hp => hne p (List.mem_cons_of_mem _ hp))
      exact ⟨x :: b, a, by rw [List.cons_append, hsplit], by
        intro p hp
        rcases List.mem_cons.mp hp with h | h
        · rw [h]; exact hlt
        · exact hb p h, ha⟩
    · refine ⟨[], x :: rest, rfl, by simp, ?_⟩
      intro p hp
      rcases List.mem_cons.mp hp with h | h
      · rw [h]; exact hgt
      · exact lt_of_lt_of_le hgt ((List.sorted_cons.mp hs).1 p h)

theorem head_fst_le_mem {l : List (ℚ × PyVal)}
    (hs : List.Sorted (fun a b => a.1 ≤ b.1) l) {x y : ℚ × PyVal}
    (hy : l.head? = some y) (hx : x ∈ l) : y.1 ≤ x.1 := by
  match l, hy with
  | z :: rest, hy =>
    simp only [List.head?_cons, Option.some.injEq] at hy
    subst hy
    rcases List.mem_cons.mp hx with h | h
    · simp [h]
    · exact (List.sorted_cons.mp hs).1 x h

/-- **C1.**  For every property series whose sorted numeric samples contain a
strictly-lower point `(t1,v1)` and a strictly-higher point `(t2,v2)` bracketing
a query temperature `temp` (no sample exactly at `temp`, `t1` the largest
sample temperature below it, `t2` the smallest above it), the temperature
lookup returns `v1 + (temp-t1)*(v2-v1)/(t2-t1)` formatted to two decimal
places. -/
theorem C1_interpolation_formula
    (raw : List (ℚ × PyVal)) (temp t1 t2 v1 v2 : ℚ)
    (hnodup : (raw.map Prod.fst).Nodup)
    (hmem1 : (t1, PyVal.num v1) ∈ raw) (ht1 : t1 < temp)
    (hmax : ∀ p ∈ raw, p.1 < temp → p.1 ≤ t1)
    (hmem2 : (t2, PyVal.num v2) ∈ raw) (ht2 : temp < t2)
    (hmin : ∀ p ∈ raw, temp < p.1 → t2 ≤ p.1)
    (hnoex : ∀ p ∈ raw, p.1 ≠ temp) :
    material_valueAt (some ⟨some raw⟩) temp =
      .ok (.str (format2 (v1 + (temp - t1) * (v2 - v1) / (t2 - t1)))) := by
  have hperm := sortPairs_perm raw
  have hsort := sortPairs_sorted raw
  have hmem1' : (t1, PyVal.num v1) ∈ sortPairs raw := hperm.mem_iff.mpr hmem1
  have hmem2' : (t2, PyVal.num v2) ∈ sortPairs raw := hperm.mem_iff.mpr hmem2
  have hnoex' : ∀ p ∈ sortPairs raw, p.1 ≠ temp := fun p hp => hnoex p (hperm.subset hp)
  have hnodup' : ((sortPairs raw).map Prod.fst).Nodup :=
    ((hperm.map Prod.fst).nodup_iff).mpr hnodup
  obtain ⟨b, a, hsplit, hb, ha⟩ := sorted_split hsort hnoex'
  have hmem1b : (t1, PyVal.num v1) ∈ b := by
    rcases List.mem_append.mp (hsplit ▸ hmem1') with h | h
    · exact h
    · exact absurd (ha _ h) (by simp only; exact not_lt_of_gt ht1)
  have hbne : b ≠ [] := fun h => by simp [h] at hmem1b
  obtain ⟨x, hx⟩ : ∃ x, b.getLast? = some x := by
    cases hgl : b.getLast? with
    | none => exact absurd (List.getLast?_eq_none_iff.mp hgl) hbne
    | some x => exact ⟨x, rfl⟩
  have hxb : x ∈ b := getLast?_mem' b x hx
  have hxl : x ∈ sortPairs raw := by
    rw [hsplit]; exact List.mem_append_left a hxb
  have hxraw : x ∈ raw := hperm.subset hxl
  have hx1 : x.1 ≤ t1 := hmax x hxraw (hb x hxb)
  have hbsorted : List.Sorted (fun p q => p.1 ≤ q.1) b := by
    rw [hsplit] at hsort
    exact hsort.sublist (List.sublist_append_left b a)
  have ht1x : t1 ≤ x.1 := mem_fst_le_getLast hbsorted hmem1b hx
  have hxeq : x = (t1, PyVal.num v1) :=
    List.inj_on_of_nodup_map hnodup' hxl hmem1' (le_antisymm hx1 ht1x)
  have hmem2a : (t2, PyVal.num v2) ∈ a := by
    rcases List.mem_append.mp (hsplit ▸ hmem2') with h | h
    · exact absurd (hb _ h) (by simp only; exact not_lt_of_gt ht2)
    · exact h
  obtain ⟨y, hy⟩ : ∃ y, a.head? = some y := by
    cases a with
    | nil => simp at hmem2a
    | cons z zs => exact ⟨z, rfl⟩
  have hya : y ∈ a := by
    cases a with
    | nil => simp at hy
    | cons z zs =>
      simp only [List.head?_cons, Option.some.injEq] at hy
      simp [hy]
  have hyl : y ∈ sortPairs raw := by
    rw [hsplit]; exact List.mem_append_right b hya
  have hyraw : y ∈ raw := hperm.subset hyl
  have hy2 : t2 ≤ y.1 := hmin y hyraw (ha y hya)
  have hasorted : List.Sorted (fun p q => p.1 ≤ q.1) a := by
    rw [hsplit] at hsort
    exact hsort.sublist (List.sublist_append_right b a)
  have hy2' : y.1 ≤ t2 := head_fst_le_mem hasorted hy hmem2a
  have hyeq : y = (t2, PyVal.num v2) :=
    List.inj_on_of_nodup_map hnodup' hyl hmem2' (le_antisymm hy2' hy2)
  have hlne : sortPairs raw ≠ [] := by
    rw [hsplit]
    intro h
    exact hbne (List.append_eq_nil.mp h).1
  have hfold : b.foldl (fun _ p => some p) none = some (t1, PyVal.num v1) := by
    rw [foldl_some_getLast b none x hx, hxeq]
  have hbr : scanBracket (sortPairs raw) temp none =
      (some (t1, PyVal.num v1), some (t2, PyVal.num v2)) := by
    rw [hsplit, scanBracket_below b a none hb, hfold, scanBracket_above a _ ha, hy, hyeq]
  have hsub : t2 - t1 ≠ 0 := sub_ne_zero.mpr (ne_of_gt (lt_trans ht1 ht2))
  simp only [material_valueAt, if_neg hlne, scanExact_eq_none hnoex', hbr, interpolate,
    if_neg hsub]

/-- **C2.**  For every property series and query temperature equal to some
sample's temperature, the lookup returns the stored value of the first
matching sample of the sorted list unmodified (its original numeric or string
form, no rounding, no interpolation). -/
theorem C2_exact_sample_returned
    (raw : List (ℚ × PyVal)) (temp : ℚ) (v0 : PyVal) (l1 l2 : List (ℚ × PyVal))
    (hsplit : sortPairs raw = l1 ++ (temp, v0) :: l2)
    (hfirst : ∀ p ∈ l1, p.1 ≠ temp) :
    material_valueAt (some ⟨some raw⟩) temp = .ok v0 := by
  have hlne : sortPairs raw ≠ [] := by
    rw [hsplit]
    exact List.append_ne_nil_of_right_ne_nil l1 (List.cons_ne_nil _ _)
  have hex : scanExact (sortPairs raw) temp = some v0 := by
    rw [hsplit]
    exact scanExact_first v0 l1 l2 hfirst
  simp only [material_valueAt, if_neg hlne, hex]

/-- **C3.**  The lookup returns the "no data" sentinel `"-"` — and never
raises — whenever the property data is missing, the
`temperature_value_pairs` key is missing, the sample list is empty, or the
query temperature lies strictly outside the sampled temperature range; no
extrapolation is performed.  The last conjunct covers
`Material.get_property_at_temp` when the property key is found nowhere. -/
theorem C3_no_data_sentinel (temp : ℚ) :
    material_valueAt none temp = .ok (.str "-")
    ∧ material_valueAt (some ⟨none⟩) temp = .ok (.str "-")
    ∧ material_valueAt (some ⟨some []⟩) temp = .ok (.str "-")
    ∧ (∀ raw : List (ℚ × PyVal),
        ((∀ p ∈ raw, temp < p.1) ∨ (∀ p ∈ raw, p.1 < temp)) →
        material_valueAt (some ⟨some raw⟩) temp = .ok (.str "-"))
    ∧ (∀ (m : Material) (prop_key : String),
        plookup m.physical_properties prop_key = none →
        findCategoryProp m.strength_category prop_key = none →
        m.get_property_at_temp prop_key temp = .ok (.str "-")) := by
  refine ⟨rfl, rfl, rfl, ?_, ?_⟩
  · intro raw hout
    by_cases hl : sortPairs raw = []
    · simp only [material_valueAt, if_pos hl]
    · have hperm := sortPairs_perm raw
      have hsort := sortPairs_sorted raw
      have hnoex' : ∀ p ∈ sortPairs raw, p.1 ≠ temp := by
        intro p hp
        rcases hout with h | h
        · exact ne_of_gt (h p (hperm.subset hp))
        · exact ne_of_lt (h p (hperm.subset hp))
      obtain ⟨b, a, hsplit, hb, ha⟩ := sorted_split hsort hnoex'
      rcases hout with h | h
      · have hbnil : b = [] := by
          cases b with
          | nil => rfl
          | cons z zs =>
            have hz : z ∈ sortPairs raw := by
              rw [hsplit]; exact List.mem_append_left a (List.mem_cons_self _ _)
            exact absurd (hb z (List.mem_cons_self _ _))
              (not_lt_of_gt (h z (hperm.subset hz)))
        have hbr : scanBracket (sortPairs raw) temp none = (none, a.head?) := by
          rw [hsplit, hbnil, List.nil_append]
          exact scanBracket_above a none ha
        simp only [material_valueAt, if_neg hl, scanExact_eq_none hnoex', hbr]
      · have hanil : a = [] := by
          cases a with
          | nil => rfl
          | cons z zs =>
            have hz : z ∈ sortPairs raw := by
              rw [hsplit]; exact List.mem_append_right b (List.mem_cons_self _ _)
            exact absurd (ha z (List.mem_cons_self _ _))
              (not_lt_of_gt (h z (hperm.subset hz)))
        have hbr : scanBracket (sortPairs raw) temp none =
            (b.foldl (fun _ p => some p) none, none) := by
          rw [hsplit, hanil, scanBracket_below b [] none hb]
          rfl
        simp only [material_valueAt, if_neg hl, scanExact_eq_none hnoex', hbr]
        cases b.foldl (fun _ p => some p) none <;> rfl
  · intro m prop_key h1 h2
    simp only [Material.get_property_at_temp, h1, h2]
    rfl

/-- The bracketing scan of `TempSelectionTab._get_value_from_prop_data` agrees
with the one of `Material.get_property_at_temp` on all-numeric sample lists:
`float` conversion is the identity there. -/
theorem scanBracketF_eq_scanBracket {temp : ℚ} :
    ∀ (l : List (ℚ × PyVal)) (accq : Option (ℚ × ℚ)),
      (∀ p ∈ l, ∃ q, p.2 = PyVal.num q) →
      scanBracket l temp (accq.map (fun p => (p.1, PyVal.num p.2))) =
        ((scanBracketF l temp accq).1.map (fun p => (p.1, PyVal.num p.2)),
         (scanBracketF l temp accq).2.map (fun p => (p.1, PyVal.num p.2)))
  | [], accq, _ => rfl
  | (t, v) :: rest, accq, h => by
    obtain ⟨q, hq⟩ := h (t, v) (List.mem_cons_self _ _)
    simp only at hq
    subst hq
    have hrest : ∀ p ∈ rest, ∃ q, p.2 = PyVal.num q :=
      fun p hp => h p (List.mem_cons_of_mem _ hp)
    by_cases hlt : t < temp
    · have h' := @scanBracketF_eq_scanBracket temp rest (some (t, q)) hrest
      simp only [scanBracket, scanBracketF, pyFloat, if_pos hlt]
      exact h'
    · by_cases hgt : t > temp
      · simp only [scanBracket, scanBracketF, pyFloat, if_neg hlt, if_pos hgt]
        rfl
      · have h' := @scanBracketF_eq_scanBracket temp rest accq hrest
        simp only [scanBracket, scanBracketF, pyFloat, if_neg hlt, if_neg hgt]
        exact h'

/-- **C10.**  On property data whose `temperature_value_pairs` are all numeric
pairs, the three temperature-lookup implementations —
`Material.get_property_at_temp`, `TempSelectionTab._get_value_from_prop_data`
and `SingleCalcTab.get_property_at_temp` — return the same result for the same
series and query temperature (and none of them raises). -/
theorem C10_three_lookups_agree (pd : Option PropData) (temp : ℚ)
    (hnum : ∀ d, pd = some d → ∀ l, d.temperature_value_pairs = some l →
      ∀ p ∈ l, ∃ q, p.2 = PyVal.num q) :
    material_valueAt pd temp = .ok (tempsel_valueAt pd temp) ∧
    material_valueAt pd temp = singlecalc_valueAt pd temp := by
  refine ⟨?_, rfl⟩
  match pd with
  | none => rfl
  | some ⟨none⟩ => rfl
  | some ⟨some raw⟩ =>
    have hnum' : ∀ p ∈ raw, ∃ q, p.2 = PyVal.num q := hnum ⟨some raw⟩ rfl raw rfl
    have hnuml : ∀ p ∈ sortPairs raw, ∃ q, p.2 = PyVal.num q :=
      fun p hp => hnum' p ((sortPairs_perm raw).subset hp)
    by_cases hl : sortPairs raw = []
    · simp only [material_valueAt, tempsel_valueAt, if_pos hl]
    · simp only [material_valueAt, tempsel_valueAt, if_neg hl]
      cases hex : scanExact (sortPairs raw) temp with
      | some v => rfl
      | none =>
        have hbr : scanBracket (sortPairs raw) temp none =
            ((scanBracketF (sortPairs raw) temp none).1.map (fun p => (p.1, PyVal.num p.2)),
             (scanBracketF (sortPairs raw) temp none).2.map (fun p => (p.1, PyVal.num p.2))) :=
          @scanBracketF_eq_scanBracket temp (sortPairs raw) none hnuml
        rcases hsf : scanBracketF (sortPairs raw) temp none with ⟨lo, hi⟩
        rw [hsf] at hbr
        rw [hbr]
        cases lo with
        | none => rfl
        | some p1 =>
          cases hi with
          | none => rfl
          | some p2 =>
            obtain ⟨t1, q1⟩ := p1
            obtain ⟨t2, q2⟩ := p2
            show interpolate t1 (PyVal.num q1) t2 (PyVal.num q2) temp = _
            by_cases hz : t2 - t1 = 0
            · simp only [interpolate, if_pos hz]
            · simp only [interpolate, if_neg hz]

/-- Witness for C1 at the spec's concrete scenario: samples
`[[0,250],[100,230],[200,200]]` at `t = 150` yield `"215.00"`. -/
theorem C1_interpolation_formula_witness :
    material_valueAt
      (some ⟨some [(0, PyVal.num 250), (100, PyVal.num 230), (200, PyVal.num 200)]⟩) 150 =
      Except.ok (PyVal.str "215.00") := by
  have h := C1_interpolation_formula
    [(0, PyVal.num 250), (100, PyVal.num 230), (200, PyVal.num 200)]
    150 100 200 230 200
    (by decide) (by decide) (by decide) (by decide) (by decide) (by decide)
    (by decide) (by decide)
  rw [h]
  simp only [Except.ok.injEq, PyVal.str.injEq]
  decide

/-- Witness for C2 at the spec's concrete scenario: querying at `t = 200`
returns the stored `200` untouched. -/
theorem C2_exact_sample_returned_witness :
    material_valueAt
      (some ⟨some [(0, PyVal.num 250), (100, PyVal.num 230), (200, PyVal.num 200)]⟩) 200 =
      Except.ok (PyVal.num 200) :=
  C2_exact_sample_returned
    [(0, PyVal.num 250), (100, PyVal.num 230), (200, PyVal.num 200)]
    200 (PyVal.num 200) [(0, PyVal.num 250), (100, PyVal.num 230)] []
    (by decide) (by decide)

/-- Witness for C3 at the spec's concrete scenario: querying at `t = 300`
(outside the sampled range) returns the sentinel. -/
theorem C3_no_data_sentinel_witness :
    material_valueAt
      (some ⟨some [(0, PyVal.num 250), (100, PyVal.num 230), (200, PyVal.num 200)]⟩) 300 =
      Except.ok (PyVal.str "-") :=
  (C3_no_data_sentinel 300).2.2.2.1
    [(0, PyVal.num 250), (100, PyVal.num 230), (200, PyVal.num 200)]
    (Or.inr (by decide))

/-- Witness for C10 on a concrete all-numeric series. -/
theorem C10_three_lookups_agree_witness :
    material_valueAt (some ⟨some [(0, PyVal.num 1), (10, PyVal.num 3)]⟩) 5 =
      Except.ok (tempsel_valueAt (some ⟨some [(0, PyVal.num 1), (10, PyVal.num 3)]⟩) 5) ∧
    material_valueAt (some ⟨some [(0, PyVal.num 1), (10, PyVal.num 3)]⟩) 5 =
      singlecalc_valueAt (some ⟨some [(0, PyVal.num 1), (10, PyVal.num 3)]⟩) 5 :=
  C10_three_lookups_agree (some ⟨some [(0, PyVal.num 1), (10, PyVal.num 3)]⟩) 5
    (by
      intro d hd l hl p hp
      cases hd
      simp only [Option.some.injEq] at hl
      subst hl
      rcases List.mem_cons.mp hp with h | h
      · exact ⟨1, by rw [h]⟩
      · rcases List.mem_cons.mp h with h' | h'
        · exact ⟨3, by rw [h']⟩
        · simp at h')

/-! ## The composition matcher

`ChemCompositionTab._apply_filters_and_resort` (lines 1648–1691) classifies
every composition source against the per-element targets, scores it, and
re-sorts the sources by `(is_match, score)` descending (Python's stable
`list.sort` with `reverse=True`, modelled again by a stable insertion sort on
the reversed key order).

An element entry (`elements_map[elem]`) carries optional min/max values and
optional tolerance fields; a tolerance may be a string or a number in the
JSON, hence `PyVal`.  An entry that is an empty dict is falsy in Python and
treated like a missing entry; it is modelled by absence from the map. -/

structure ElemInfo where
  min_value : Option ℚ
  max_value : Option ℚ
  min_value_tolerance : Option PyVal
  max_value_tolerance : Option PyVal
deriving DecidableEq

/-- Generic Python-dict lookup on an association list with string keys. -/
def dictGet {β : Type} (o : List (String × β)) (k : String) : Option β :=
  match o with
  | [] => none
  | (k', v) :: rest => if k' = k then some v else dictGet rest k

/-- The fields of a `comp_data` row read by the matcher (the remaining fields
of the row are presentation only). -/
structure CompData where
  material_name : String
  source : String
  base_element : String
  elements_map : List (String × ElemInfo)

/-- `if tol_str not in (None, ''): try: bound = float(tol_str) except: pass` —
a parseable tolerance overrides the bound, otherwise the bound stands;
`none` stands for the infinite default. -/
def applyTolerance (bound : Option ℚ) (tol : Option PyVal) : Option ℚ :=
  if tol = none ∨ tol = some (PyVal.str "") then bound
  else
    match tol with
    | some t =>
      match pyFloat t with
      | some q => some q
      | none => bound
    | none => bound

/-- `lower_bound = float('-inf') if min_v is None else min_v`, then the
tolerance override; `none` models `-inf`. -/
def lower_bound (e : ElemInfo) : Option ℚ := applyTolerance e.min_value e.min_value_tolerance

/-- Upper bound with `none` modelling `+inf`. -/
def upper_bound (e : ElemInfo) : Option ℚ := applyTolerance e.max_value e.max_value_tolerance

/-- `lower_bound <= target_val` where `none` is `-inf`. -/
def lbLE (lb : Option ℚ) (t : ℚ) : Bool :=
  match lb with
  | none => true
  | some q => q ≤ t

/-- `target_val <= upper_bound` where `none` is `+inf`. -/
def ubGE (ub : Option ℚ) (t : ℚ) : Bool :=
  match ub with
  | none => true
  | some q => t ≤ q

/-- The per-element classification loop (`for elem, target_val in
targets.items()`), carried state `(score, is_fully_matching, cell_colors)`.
An unparseable target (`target_val is None`) is skipped; the targets dict has
unique keys, so the color-dict assignment is an append. -/
def classifyFold (em : List (String × ElemInfo)) :
    List (String × Option ℚ) → ℤ × Bool × List (String × String) →
      ℤ × Bool × List (String × String)
  | [], st => st
  | (_, none) :: rest, st => classifyFold em rest st
  | (elem, some tv) :: rest, (score, ism, colors) =>
    match dictGet em elem with
    | none => classifyFold em rest (score, false, colors ++ [(elem, "light coral")])
    | some info =>
      if lbLE (lower_bound info) tv && ubGE (upper_bound info) tv then
        classifyFold em rest (score + 1, ism, colors ++ [(elem, "pale green")])
      else
        classifyFold em rest (score, false, colors ++ [(elem, "light coral")])

/-- A processed row: the source plus `is_match`, the normalized `score`
(`score if is_fully_matching else -1`) and the per-element colors. -/
structure ProcessedComp where
  comp : CompData
  is_match : Bool
  score : ℤ
  cell_colors : List (String × String)

/-- Classification and score normalization of one composition source. -/
def processComp (targets : List (String × Option ℚ)) (c : CompData) : ProcessedComp :=
  let st := classifyFold c.elements_map targets (0, true, [])
  { comp := c, is_match := st.2.1, score := if st.2.1 then st.1 else -1,
    cell_colors := st.2.2 }

/-- The Python sort key `(is_match, score)`. -/
def sortKey (p : ProcessedComp) : Bool × ℤ := (p.is_match, p.score)

/-- Lexicographic `≤` on `(bool, int)` keys, `False < True`. -/
def keyLe (a b : Bool × ℤ) : Bool := (!a.1 && b.1) || (a.1 == b.1 && a.2 ≤ b.2)

/-- `processed_data.sort(key=..., reverse=True)`: stable descending sort. -/
def apply_filters_and_resort (targets : List (String × Option ℚ)) (comps : List CompData) :
    List ProcessedComp :=
  List.insertionSort (fun a b => keyLe (sortKey b) (sortKey a) = true)
    (comps.map (processComp targets))

theorem keyLe_total : ∀ x y : Bool × ℤ, keyLe x y = true ∨ keyLe y x = true := by
  rintro ⟨bx, ix⟩ ⟨b2, iy⟩
  cases bx <;> cases b2 <;> simp [keyLe] <;> omega

theorem keyLe_trans : ∀ x y z : Bool × ℤ, keyLe x y = true → keyLe y z = true →
    keyLe x z = true := by
  rintro ⟨bx, ix⟩ ⟨b2, iy⟩ ⟨bz, iz⟩ hxy hyz
  cases bx <;> cases b2 <;> cases bz <;> simp_all [keyLe] <;> omega

instance : IsTotal ProcessedComp (fun a b => keyLe (sortKey b) (sortKey a) = true) :=
  ⟨fun a b => keyLe_total (sortKey b) (sortKey a)⟩

instance : IsTrans ProcessedComp (fun a b => keyLe (sortKey b) (sortKey a) = true) :=
  ⟨fun _ _ _ h1 h2 => keyLe_trans _ _ _ h2 h1⟩

theorem dictGet_append {β : Type} :
    ∀ (l1 l2 : List (String × β)) (k : String),
      dictGet (l1 ++ l2) k =
        match dictGet l1 k with
        | some v => some v
        | none => dictGet l2 k
  | [], _, _ => rfl
  | (k', v) :: rest, l2, k => by
    by_cases h : k' = k
    · simp only [List.cons_append, dictGet, if_pos h]
    · simp only [List.cons_append, dictGet, if_neg h]
      exact dictGet_append rest l2 k

theorem dictGet_eq_none_of_not_mem {β : Type} :
    ∀ {l : List (String × β)} {k : String}, k ∉ l.map Prod.fst → dictGet l k = none
  | [], _, _ => rfl
  | (k', v) :: rest, k, h => by
    have hk : k' ≠ k := by
      intro he
      exact h (by simp [he])
    simp only [dictGet, if_neg hk]
    exact dictGet_eq_none_of_not_mem fun hm => h (by simp [hm])

theorem classifyFold_false (em : List (String × ElemInfo)) :
    ∀ (targets : List (String × Option ℚ)) (st : ℤ × Bool × List (String × String)),
      st.2.1 = false → (classifyFold em targets st).2.1 = false
  | [], _, h => h
  | (_, none) :: rest, st, h => classifyFold_false em rest st h
  | (elem, some tv) :: rest, (score, ism, colors), h => by
    simp only at h
    subst h
    simp only [classifyFold]
    cases dictGet em elem with
    | none => exact classifyFold_false em rest _ rfl
    | some info =>
      dsimp only
      by_cases hb : (lbLE (lower_bound info) tv && ubGE (upper_bound info) tv) = true
      · rw [if_pos hb]
        exact classifyFold_false em rest _ rfl
      · rw [if_neg hb]
        exact classifyFold_false em rest _ rfl

theorem classifyFold_score_le (em : List (String × ElemInfo)) :
    ∀ (targets : List (String × Option ℚ)) (st : ℤ × Bool × List (String × String)),
      st.1 ≤ (classifyFold em targets st).1
  | [], _ => le_refl _
  | (_, none) :: rest, st => classifyFold_score_le em rest st
  | (elem, some tv) :: rest, (score, ism, colors) => by
    simp only [classifyFold]
    cases dictGet em elem with
    | none => exact classifyFold_score_le em rest _
    | some info =>
      dsimp only
      by_cases hb : (lbLE (lower_bound info) tv && ubGE (upper_bound info) tv) = true
      · rw [if_pos hb]
        calc (score : ℤ) ≤ score + 1 := by omega
          _ ≤ _ := classifyFold_score_le em rest _
      · rw [if_neg hb]
        exact classifyFold_score_le em rest _

theorem classifyFold_color_stable (em : List (String × ElemInfo)) (elem : String) :
    ∀ (targets : List (String × Option ℚ)) (st : ℤ × Bool × List (String × String)),
      elem ∉ targets.map Prod.fst →
      dictGet (classifyFold em targets st).2.2 elem = dictGet st.2.2 elem
  | [], _, _ => rfl
  | (e, none) :: rest, st, h =>
    classifyFold_color_stable em elem rest st fun hm => h (by simp [hm])
  | (e, some tv) :: rest, (score, ism, colors), h => by
    have he : e ≠ elem := by
      intro hc
      exact h (by simp [hc])
    have hrest : elem ∉ rest.map Prod.fst := fun hm => h (by simp [hm])
    have happ : ∀ c : String, dictGet (colors ++ [(e, c)]) elem = dictGet colors elem := by
      intro c
      rw [dictGet_append]
      cases hg : dictGet colors elem with
      | some v => rfl
      | none => simp [dictGet, if_neg he]
    simp only [classifyFold]
    cases dictGet em e with
    | none =>
      dsimp only
      rw [classifyFold_color_stable em elem rest _ hrest]
      exact happ _
    | some info =>
      dsimp only
      by_cases hb : (lbLE (lower_bound info) tv && ubGE (upper_bound info) tv) = true
      · rw [if_pos hb, classifyFold_color_stable em elem rest _ hrest]
        exact happ _
      · rw [if_neg hb, classifyFold_color_stable em elem rest _ hrest]
        exact happ _

/-- Characterization of one targeted element's classification inside the
matcher loop: its cell color is computed from the effective bounds, and a
missing entry or an out-of-bounds target forces `is_fully_matching = false`. -/
theorem classifyFold_spec (em : List (String × ElemInfo)) (elem : String) (tv : ℚ) :
    ∀ (targets : List (String × Option ℚ)) (st : ℤ × Bool × List (String × String)),
      (elem, some tv) ∈ targets → (targets.map Prod.fst).Nodup →
      elem ∉ st.2.2.map Prod.fst →
      dictGet (classifyFold em targets st).2.2 elem =
        some (match dictGet em elem with
              | none => "light coral"
              | some info =>
                if lbLE (lower_bound info) tv && ubGE (upper_bound info) tv
                then "pale green" else "light coral")
      ∧ ((dictGet em elem = none ∨
          ∃ info, dictGet em elem = some info ∧
            (lbLE (lower_bound info) tv && ubGE (upper_bound info) tv) = false) →
        (classifyFold em targets st).2.1 = false)
  | [], _, hmem, _, _ => absurd hmem (by simp)
  | (e, t?) :: rest, st, hmem, hnodup, hst => by
    have hnodup' : (e :: rest.map Prod.fst).Nodup := by
      rw [List.map_cons] at hnodup
      exact hnodup
    have hnd1 : e ∉ rest.map Prod.fst := (List.nodup_cons.mp hnodup').1
    have hnd2 : (rest.map Prod.fst).Nodup := (List.nodup_cons.mp hnodup').2
    by_cases he : e = elem
    · subst he
      have hheads : t? = some tv := by
        rcases List.mem_cons.mp hmem with h | h
        · exact (Prod.mk.injEq _ _ _ _ ▸ h.symm).2
        · exact absurd (by simpa using List.mem_map_of_mem Prod.fst h) hnd1
      subst hheads
      obtain ⟨score, ism, colors⟩ := st
      have hcolors : dictGet colors e = none := dictGet_eq_none_of_not_mem (by simpa using hst)
      have happ : ∀ c : String, dictGet (colors ++ [(e, c)]) e = some c := by
        intro c
        rw [dictGet_append, hcolors]
        simp [dictGet]
      simp only [classifyFold]
      cases hg : dictGet em e with
      | none =>
        dsimp only
        refine ⟨?_, fun _ => classifyFold_false em rest _ rfl⟩
        rw [classifyFold_color_stable em e rest _ hnd1]
        exact happ _
      | some info =>
        dsimp only
        by_cases hb : (lbLE (lower_bound info) tv && ubGE (upper_bound info) tv) = true
        · rw [if_pos hb]
          constructor
          · rw [classifyFold_color_stable em e rest _ hnd1, if_pos hb]
            exact happ _
          · intro hcond
            rcases hcond with h | ⟨info', hinfo', hb'⟩
            · exact absurd h (by simp)
            · injection hinfo' with hinj
              subst hinj
              exact absurd hb (by rw [hb']; simp)
        · rw [if_neg hb]
          refine ⟨?_, fun _ => classifyFold_false em rest _ rfl⟩
          rw [classifyFold_color_stable em e rest _ hnd1,
            if_neg hb]
          exact happ _
    · have hmem' : (elem, some tv) ∈ rest := by
        rcases List.mem_cons.mp hmem with h | h
        · exact absurd (congrArg Prod.fst h).symm he
        · exact h
      obtain ⟨score, ism, colors⟩ := st
      have hst' : ∀ c : String, elem ∉ (colors ++ [(e, c)]).map Prod.fst := by
        intro c hm
        rw [List.map_append] at hm
        rcases List.mem_append.mp hm with h | h
        · exact hst (by simpa using h)
        · simp only [List.map_cons, List.map_nil, List.mem_singleton] at h
          exact he h.symm
      cases t? with
      | none => exact classifyFold_spec em elem tv rest _ hmem' hnd2 hst
      | some tv' =>
        simp only [classifyFold]
        cases dictGet em e with
        | none => exact classifyFold_spec em elem tv rest _ hmem' hnd2 (hst' _)
        | some info =>
          dsimp only
          by_cases hb : (lbLE (lower_bound info) tv' && ubGE (upper_bound info) tv') = true
          · rw [if_pos hb]
            exact classifyFold_spec em elem tv rest _ hmem' hnd2 (hst' _)
          · rw [if_neg hb]
            exact classifyFold_spec em elem tv rest _ hmem' hnd2 (hst' _)

/-- **C7.**  For every composition source and targeted element with a parseable
numeric target: a missing entry is classified `mismatch` (light coral) and the
source is marked not fully matching; a present entry is classified `match`
(pale green) exactly when `lower_bound ≤ target ≤ upper_bound`, where the
bounds are the entry's min/max values, overridden by parseable numeric
tolerances and defaulting to `−∞`/`+∞` when absent, and an out-of-bounds
target marks the source not fully matching. -/
theorem C7_element_classification
    (targets : List (String × Option ℚ)) (c : CompData) (elem : String) (tv : ℚ)
    (hmem : (elem, some tv) ∈ targets)
    (hnodup : (targets.map Prod.fst).Nodup) :
    (dictGet c.elements_map elem = none →
      dictGet (processComp targets c).cell_colors elem = some "light coral" ∧
      (processComp targets c).is_match = false)
    ∧ (∀ info, dictGet c.elements_map elem = some info →
      dictGet (processComp targets c).cell_colors elem =
        some (if lbLE (lower_bound info) tv && ubGE (upper_bound info) tv
              then "pale green" else "light coral") ∧
      ((lbLE (lower_bound info) tv && ubGE (upper_bound info) tv) = false →
        (processComp targets c).is_match = false)) := by
  have h := classifyFold_spec c.elements_map elem tv targets (0, true, []) hmem hnodup (by simp)
  constructor
  · intro hnone
    refine ⟨?_, h.2 (Or.inl hnone)⟩
    have h1 := h.1
    rw [hnone] at h1
    exact h1
  · intro info hinfo
    constructor
    · have h1 := h.1
      rw [hinfo] at h1
      exact h1
    · intro hb
      exact h.2 (Or.inr ⟨info, hinfo, hb⟩)

/-- Witness for C7 at the spec's concrete scenario: a source with Cr entry
`{min:10, max:14}` classifies target `Cr=12` as a match and target `Cr=15` as
a mismatch that excludes the source from "fully matching". -/
theorem C7_element_classification_witness :
    dictGet (processComp [("Cr", some 12)]
        ⟨"M", "S", "Fe", [("Cr", ⟨some 10, some 14, none, none⟩)]⟩).cell_colors "Cr" =
      some "pale green" ∧
    (processComp [("Cr", some 15)]
        ⟨"M", "S", "Fe", [("Cr", ⟨some 10, some 14, none, none⟩)]⟩).is_match = false := by
  constructor
  · have h := (C7_element_classification [("Cr", some 12)]
      ⟨"M", "S", "Fe", [("Cr", ⟨some 10, some 14, none, none⟩)]⟩ "Cr" 12
      (by decide) (by decide)).2 ⟨some 10, some 14, none, none⟩ (by decide)
    rw [h.1]
    decide
  · have h := (C7_element_classification [("Cr", some 15)]
      ⟨"M", "S", "Fe", [("Cr", ⟨some 10, some 14, none, none⟩)]⟩ "Cr" 15
      (by decide) (by decide)).2 ⟨some 10, some 14, none, none⟩ (by decide)
    exact h.2 (by decide)

/-- **C8.**  The final ranking is a permutation of the classified sources,
sorted by the key `(is_match, score)` descending: every fully-matching source
sorts before every non-fully-matching one, within equal match status a higher
score sorts first, a non-fully-matching source's score is normalized to the
sentinel `-1`, and a fully-matching source's score is a real (non-negative)
count. -/
theorem C8_ranking (targets : List (String × Option ℚ)) (comps : List CompData) :
    (apply_filters_and_resort targets comps).Perm (comps.map (processComp targets))
    ∧ List.Pairwise (fun a b => keyLe (sortKey b) (sortKey a) = true)
        (apply_filters_and_resort targets comps)
    ∧ (∀ c ∈ apply_filters_and_resort targets comps,
        (c.is_match = false → c.score = -1) ∧ (c.is_match = true → 0 ≤ c.score))
    ∧ List.Pairwise (fun a b => (b.is_match = true → a.is_match = true)
        ∧ (a.is_match = b.is_match → b.score ≤ a.score))
        (apply_filters_and_resort targets comps) := by
  have hperm := List.perm_insertionSort (fun a b : ProcessedComp =>
    keyLe (sortKey b) (sortKey a) = true) (comps.map (processComp targets))
  have hsort := List.sorted_insertionSort (fun a b : ProcessedComp =>
    keyLe (sortKey b) (sortKey a) = true) (comps.map (processComp targets))
  refine ⟨hperm, hsort, ?_, ?_⟩
  · intro c hc
    obtain ⟨c0, _, rfl⟩ := List.mem_map.mp (hperm.subset hc)
    constructor
    · intro him
      simp only [processComp] at him ⊢
      rw [if_neg (by rw [him]; exact Bool.false_ne_true)]
    · intro him
      simp only [processComp] at him ⊢
      rw [if_pos him]
      exact classifyFold_score_le c0.elements_map targets (0, true, [])
  · refine hsort.imp ?_
    intro a b hab
    simp only [keyLe, sortKey, Bool.or_eq_true, Bool.and_eq_true, beq_iff_eq,
      decide_eq_true_eq, Bool.not_eq_eq_eq_not, Bool.not_true] at hab
    rcases hab with ⟨h1, h2⟩ | ⟨h1, h2⟩
    · constructor
      · intro hb
        rw [hb] at h1
        exact absurd h1 (by simp)
      · intro heq
        rw [heq] at h2
        rw [h1] at h2
        exact absurd h2 (by simp)
    · exact ⟨fun hb => h1 ▸ hb, fun _ => h2⟩

/-! ## The unit-conversion registry

`UNIT_CONVERSION_GROUPS` (lines 16–33) and the conversion applied by
`SingleCalcTab._display_value` (lines 1063–1090).  The float constants of the
table are modelled by the exact decimal rationals they denote. -/

structure UnitGroup where
  units : List String
  factors : List (String × List (String × ℚ))
deriving DecidableEq

/-- The pressure/stress group: `МПа` and `кгс/см²` with the bidirectional
factor matrix `factors[from][to]`. -/
def pressureGroup : UnitGroup :=
  { units := ["МПа", "кгс/см²"],
    factors :=
      [("МПа", [("МПа", 1), ("кгс/см²", 10.19716)]),
       ("кгс/см²", [("кгс/см²", 1), ("МПа", 0.0980665)])] }

/-- The unit-conversion table. -/
def UNIT_CONVERSION_GROUPS : List (String × UnitGroup) := [("pressure", pressureGroup)]

/-- `group["factors"][from_unit][to_unit]`, `none` on `KeyError`. -/
def groupFactor (g : UnitGroup) (fromU toU : String) : Option ℚ :=
  match dictGet g.factors fromU with
  | none => none
  | some row => dictGet row toU

/-- `for group in UNIT_CONVERSION_GROUPS.values(): if source_unit in
group["units"]: … break`. -/
def findGroup : List (String × UnitGroup) → String → Option UnitGroup
  | [], _ => none
  | (_, g) :: rest, u => if u ∈ g.units then some g else findGroup rest u

/-- The conversion of `SingleCalcTab._display_value`: a numeric base value
whose native unit belongs to a group is multiplied by
`factors[source_unit][target_unit]` and formatted to two decimals (a missing
factor falls back to the unconverted value, `except KeyError`); a value whose
unit is in no group, or a non-numeric value, is displayed unchanged. -/
def display_value (prop_unit target_unit : String) (base_value : PyVal) : PyVal :=
  match base_value with
  | .str s => .str s
  | .num q =>
    match findGroup UNIT_CONVERSION_GROUPS prop_unit with
    | none => .num q
    | some g =>
      match groupFactor g prop_unit target_unit with
      | some f => .str (format2 (q * f))
      | none => .str (format2 q)

theorem roundtrip_bound (f1 f2 : ℚ) (h : |f1 * f2 - 1| ≤ 1 / 1000000) :
    ∀ x : ℚ, |x * f1 * f2 - x| ≤ |x| / 1000000 := by
  intro x
  have he : x * f1 * f2 - x = x * (f1 * f2 - 1) := by ring
  rw [he, abs_mul]
  calc |x| * |f1 * f2 - 1| ≤ |x| * (1 / 1000000) :=
        mul_le_mul_of_nonneg_left h (abs_nonneg x)
    _ = |x| / 1000000 := by ring

/-- **C9.**  For every pair of units `A`, `B` of a conversion group, the
factor matrix contains both `factors[A][B]` and `factors[B][A]`, their product
is `1` up to `10⁻⁶`, and hence converting any value from `A` to `B` and back
with the matrix returns the original value up to a relative error of `10⁻⁶`
(rounding tolerance). -/
theorem C9_unit_roundtrip (gname : String) (g : UnitGroup)
    (hg : (gname, g) ∈ UNIT_CONVERSION_GROUPS) :
    ∀ A ∈ g.units, ∀ B ∈ g.units,
      ∃ fab fba : ℚ, groupFactor g A B = some fab ∧ groupFactor g B A = some fba ∧
        |fab * fba - 1| ≤ 1 / 1000000 ∧
        ∀ x : ℚ, |x * fab * fba - x| ≤ |x| / 1000000 := by
  simp only [UNIT_CONVERSION_GROUPS, List.mem_singleton, Prod.mk.injEq] at hg
  obtain ⟨-, rfl⟩ := hg
  intro A hA B hB
  simp only [pressureGroup, List.mem_cons, List.mem_singleton, List.not_mem_nil,
    or_false] at hA hB
  have habs1 : |(1 : ℚ) * 1 - 1| ≤ 1 / 1000000 := by
    rw [abs_le]
    constructor <;> norm_num
  have habs2 : |(10.19716 : ℚ) * 0.0980665 - 1| ≤ 1 / 1000000 := by
    rw [abs_le]
    constructor <;> norm_num
  have habs2' : |(0.0980665 : ℚ) * 10.19716 - 1| ≤ 1 / 1000000 := by
    rw [abs_le]
    constructor <;> norm_num
  rcases hA with rfl | rfl <;> rcases hB with rfl | rfl
  · exact ⟨1, 1, by decide, by decide, habs1, roundtrip_bound 1 1 habs1⟩
  · exact ⟨10.19716, 0.0980665, by decide, by decide, habs2,
      roundtrip_bound _ _ habs2⟩
  · exact ⟨0.0980665, 10.19716, by decide, by decide, habs2',
      roundtrip_bound _ _ habs2'⟩
  · exact ⟨1, 1, by decide, by decide, habs1, roundtrip_bound 1 1 habs1⟩

/-- Witness for C9: the МПа → кгс/см² → МПа round trip on the concrete
table. -/
theorem C9_unit_roundtrip_witness :
    ∃ fab fba : ℚ, groupFactor pressureGroup "МПа" "кгс/см²" = some fab ∧
      groupFactor pressureGroup "кгс/см²" "МПа" = some fba ∧
      |fab * fba - 1| ≤ 1 / 1000000 ∧
      ∀ x : ℚ, |x * fab * fba - x| ≤ |x| / 1000000 :=
  C9_unit_roundtrip "pressure" pressureGroup (by decide) "МПа" (by decide) "кгс/см²" (by decide)

/-! ## The structural diff engine

`find_changes` / `find_changes_recursive` (lines 363–427).  JSON documents are
modelled by `J`; Python `None` and JSON `null` coincide (`json.load` maps
`null` to `None`), so `d.get(key)` returning `None` for a missing key is
modelled by defaulting to `J.null`.  Python dict equality `!=` is modelled by
`jeq`; the `json.dumps(…, sort_keys=True)` comparison of the plain-list branch
distinguishes exactly the same values as `==` on the tree model (the model
does not distinguish `1` from `1.0`, nor NaN), so it is also modelled by
`jeq`.  The recursion of the source is bounded by the structure of its first
argument; it is embedded with an explicit fuel that decreases on every nested
call, and `find_changes` supplies `jsize old_data + 1` fuel, which the nested
calls (always on a strict subvalue of the first argument) can never exhaust. -/

inductive J where
  | null : J
  | num (q : ℚ) : J
  | str (s : String) : J
  | arr (l : List J) : J
  | obj (o : List (String × J)) : J

/-- Dict lookup (first occurrence; a Python dict has unique keys). -/
def jlookup (o : List (String × J)) (k : String) : Option J :=
  match o with
  | [] => none
  | (k', v) :: rest => if k' = k then some v else jlookup rest k

/-- `d.get(key)`: missing key and explicit `null` both give `J.null`. -/
def dgetJ (o : List (String × J)) (k : String) : J := (jlookup o k).getD .null

/-- `d[key] = v` for a present key (replace the first occurrence), else append. -/
def setKey (o : List (String × J)) (k : String) (v : J) : List (String × J) :=
  match o with
  | [] => [(k, v)]
  | (k', v') :: rest => if k' = k then (k', v) :: rest else (k', v') :: setKey rest k v

/-- The keys of a dict. -/
def keysOf (o : List (String × J)) : List String := o.map Prod.fst

/-- `x is None`. -/
def J.isNull : J → Bool
  | .null => true
  | _ => false

mutual
/-- Python equality `==` on JSON trees: dicts compare by key set and values,
order-insensitively. -/
def jeq : J → J → Bool
  | .null, .null => true
  | .num a, .num b => a == b
  | .str a, .str b => a == b
  | .arr a, .arr b => jeqL a b
  | .obj a, .obj b => (a.length == b.length) && jeqO a b
  | _, _ => false

def jeqL : List J → List J → Bool
  | [], [] => true
  | x :: xs, y :: ys => jeq x y && jeqL xs ys
  | _, _ => false

def jeqO : List (String × J) → List (String × J) → Bool
  | [], _ => true
  | (k, v) :: rest, o2 =>
    (match jlookup o2 k with
     | some w => jeq v w
     | none => false) && jeqO rest o2
end

mutual
/-- Number of nodes of a JSON tree (at least 1). -/
def jsize : J → Nat
  | .null => 1
  | .num _ => 1
  | .str _ => 1
  | .arr l => 1 + jsizeL l
  | .obj o => 1 + jsizeO o

def jsizeL : List J → Nat
  | [] => 0
  | x :: xs => jsize x + jsizeL xs

def jsizeO : List (String × J) → Nat
  | [] => 0
  | (_, v) :: rest => jsize v + jsizeO rest
end

/-- The two volatile keys excluded from every dict comparison. -/
def volatileKey (k : String) : Bool := k == "material_id" || k == "property_last_updated"

mutual
/-- Erase the volatile keys at every dict level (used to state "equal except
the volatile fields"). -/
def strip : J → J
  | .obj o => .obj (stripO o)
  | .arr l => .arr (stripL l)
  | x => x

def stripL : List J → List J
  | [] => []
  | x :: xs => strip x :: stripL xs

def stripO : List (String × J) → List (String × J)
  | [] => []
  | (k, v) :: rest =>
    if volatileKey k then stripO rest else (k, strip v) :: stripO rest
end

mutual
/-- No volatile key occurs anywhere in the tree. -/
def noVol : J → Bool
  | .obj o => noVolO o
  | .arr l => noVolL l
  | _ => true

def noVolL : List J → Bool
  | [] => true
  | x :: xs => noVol x && noVolL xs

def noVolO : List (String × J) → Bool
  | [] => true
  | (k, v) :: rest => !volatileKey k && noVol v && noVolO rest
end

/-- `LIST_ITEM_KEYS` (lines 37–42): identity-key table for "smart" list
comparison, keyed by the structural path. -/
def LIST_ITEM_KEYS : List (List String × String) :=
  [(["mechanical_properties", "strength_category"], "value_strength_category"),
   (["chemical_properties", "composition"], "composition_source"),
   (["chemical_properties", "composition", "other_elements"], "element")]

/-- `LIST_ITEM_KEYS.get(tuple(path))`. -/
def listItemKey (path : List String) : Option String :=
  match LIST_ITEM_KEYS.find? (fun p => p.1 = path) with
  | some p => some p.2
  | none => none

/-- `item[unique_key_name]` when `item` is a dict containing the key. -/
def itemKey (item : J) (ukey : String) : Option J :=
  match item with
  | .obj o => jlookup o ukey
  | _ => none

/-- `str(x)` for the identity-key values interpolated into the synthetic path
segment.  The identity keys of this schema are strings; the renderings of the
other constructors are placeholders (a number renders exactly, a container
would be unhashable as a dict key in Python and never reaches this point). -/
def jDisplay : J → String
  | .str s => s
  | .null => "None"
  | .num q =>
    (if q < 0 then "-" else "") ++ natStr q.num.natAbs ++
      (if q.den = 1 then "" else "/" ++ natStr q.den)
  | .arr _ => "<list>"
  | .obj _ => "<dict>"

/-- Is `item[ukey]` a string?  (The well-formedness used by the `cleanVol`
hypothesis below; in the record schema all identity keys are strings.) -/
def isStrKey (item : J) (ukey : String) : Bool :=
  match itemKey item ukey with
  | some (.str _) => true
  | _ => false

/-- The synthetic path segment `f"{path[-1]}[{item_key}]"`. -/
def segFor (path : List String) (k : J) : String :=
  (path.getLastD "") ++ "[" ++ jDisplay k ++ "]"

/-- One entry of the structured change list. -/
inductive ChangeType where
  | added : ChangeType
  | removed : ChangeType
  | modified : ChangeType

structure Change where
  path : List String
  type : ChangeType
  old : Option J
  new : Option J

/-- `sorted(list(set(d1.keys()) | set(d2.keys())))`. -/
def sortedUnionS (ks1 ks2 : List String) : List String :=
  List.insertionSort (fun a b => strLe a b = true) ((ks1 ++ ks2).dedup)

/-- Deduplicate a list of key values under Python equality, keeping first
occurrences (the result is then sorted, so the set-iteration order of the
source is immaterial). -/
def jdedupGo (seen : List J) : List J → List J
  | [] => []
  | x :: xs =>
    if seen.any (fun y => jeq y x) then jdedupGo seen xs
    else x :: jdedupGo (x :: seen) xs

/-- Total order on identity-key values used to model
`sorted(set(old_map) | set(new_map))`: rank by constructor, numbers by value,
strings by code points.  (Python would raise on mixed or unhashable key types;
the schema's identity keys are strings, where this order is Python's.) -/
def jrank : J → Nat
  | .null => 0
  | .num _ => 1
  | .str _ => 2
  | .arr _ => 3
  | .obj _ => 4

def jle (a b : J) : Bool :=
  if jrank a < jrank b then true
  else if jrank b < jrank a then false
  else
    match a, b with
    | .num x, .num y => decide (x ≤ y)
    | .str x, .str y => strLe x y
    | _, _ => true

/-- `sorted(list(set(old_map.keys()) | set(new_map.keys())))`. -/
def sortedUnionJ (ks1 ks2 : List J) : List J :=
  List.insertionSort (fun a b => jle a b = true) (jdedupGo [] (ks1 ++ ks2))

/-- Overwriting insert of `{key(item): item}` dict comprehensions (a later
item with an equal key wins). -/
def mapInsert (m : List (J × J)) (k v : J) : List (J × J) :=
  match m with
  | [] => [(k, v)]
  | (k', v') :: rest => if jeq k' k then (k', v) :: rest else (k', v') :: mapInsert rest k v

/-- One step of the `{item[unique_key_name]: item for item in l}`
comprehension. -/
def bmStep (ukey : String) (m : List (J × J)) (item : J) : List (J × J) :=
  match itemKey item ukey with
  | some kv => mapInsert m kv item
  | none => m

/-- `{item[unique_key_name]: item for item in l}`. -/
def buildMap (ukey : String) (l : List J) : List (J × J) :=
  l.foldl (bmStep ukey) []

/-- `old_map.get(item_key)`. -/
def mlookup (m : List (J × J)) (k : J) : Option J :=
  match m with
  | [] => none
  | (k', v) :: rest => if jeq k' k then some v else mlookup rest k

/-- `find_changes_recursive(d1, d2, path)` (lines 369–423), with fuel `n`
(strictly decreasing on nested calls, which always descend into a subvalue of
`d1`; `find_changes` supplies more fuel than `jsize d1`, so the `0` case is
never reached from the top level). -/
def fcr : Nat → J → J → List String → List Change
  | 0, _, _, _ => []
  | n + 1, d1, d2, path =>
    match d1, d2 with
    | .obj o1, .obj o2 =>
      (sortedUnionS (keysOf o1) (keysOf o2)).flatMap (fun key =>
        if volatileKey key then []
        else
          let val1 := dgetJ o1 key
          let val2 := dgetJ o2 key
          if val1.isNull && !val2.isNull then
            [⟨path ++ [key], .added, none, some val2⟩]
          else if !val1.isNull && val2.isNull then
            [⟨path ++ [key], .removed, some val1, none⟩]
          else if jeq val1 val2 then []
          else fcr n val1 val2 (path ++ [key]))
    | .arr l1, .arr l2 =>
      (match listItemKey path with
       | some ukey =>
         if (l1 ++ l2).all (fun item => (itemKey item ukey).isSome) then
           let oldMap := buildMap ukey l1
           let newMap := buildMap ukey l2
           (sortedUnionJ (oldMap.map Prod.fst) (newMap.map Prod.fst)).flatMap (fun ik =>
             let itemPath := path ++ [segFor path ik]
             match mlookup oldMap ik, mlookup newMap ik with
             | none, some ni => [⟨itemPath, .added, none, some ni⟩]
             | some oi, none => [⟨itemPath, .removed, some oi, none⟩]
             | some oi, some ni => if jeq oi ni then [] else fcr n oi ni itemPath
             | none, none => [])
         else if jeq (.arr l1) (.arr l2) then []
         else [⟨path, .modified, some (.arr l1), some (.arr l2)⟩]
       | none =>
         if jeq (.arr l1) (.arr l2) then []
         else [⟨path, .modified, some (.arr l1), some (.arr l2)⟩])
    | _, _ =>
      if jeq d1 d2 then []
      else [⟨path, .modified, some d1, some d2⟩]

/-- `find_changes(old_data, new_data)` (the `deepcopy` of the source is the
identity on immutable tree values). -/
def find_changes (old_data new_data : J) : List Change :=
  fcr (jsize old_data + 1) old_data new_data []

mutual
/-- Volatile keys occur only where the engine's exclusion applies: below dict
keys and inside identity-keyed (string-keyed) list items — not inside
plain-compared lists.  Any record following the on-disk schema of the
repository satisfies this (its volatile fields sit in property dicts under
`physical_properties` or under strength-category items, and `material_id` at
the root). -/
def cleanVol : J → List String → Bool
  | .obj o, path => cleanVolO o path
  | .arr l, path =>
    (match listItemKey path with
     | some ukey =>
       if l.all (fun item => isStrKey item ukey) then cleanVolL l path ukey
       else noVol (.arr l)
     | none => noVol (.arr l))
  | _, _ => true

def cleanVolL : List J → List String → String → Bool
  | [], _, _ => true
  | item :: rest, path, ukey =>
    cleanVol item (path ++ [segFor path ((itemKey item ukey).getD .null)]) &&
      cleanVolL rest path ukey

def cleanVolO : List (String × J) → List String → Bool
  | [], _ => true
  | (k, v) :: rest, path =>
    (volatileKey k || cleanVol v (path ++ [k])) && cleanVolO rest path
end

/-- A record with one composition source "GOST" whose element list carries
chromium with the given minimum percentage. -/
def recWithCrMin (minv : ℚ) : J :=
  .obj [("chemical_properties", .obj [("composition", .arr [
    .obj [("composition_source", .str "GOST"),
          ("other_elements", .arr [
            .obj [("element", .str "Cr"), ("min_value", .num minv)]])]])])]

/-- **C6.**  The identity-key table names the per-source element list
(`("chemical_properties","composition","other_elements") ↦ "element"`), but
the diff engine can never reach that list under this path: recursion into a
composition source goes through the synthetic segment `composition[<source>]`,
so the element list is compared as a plain list.  Changing one element's
`min_value` from 10 to 11 therefore produces a single whole-list `modified`
entry instead of per-element entries — the code contradicts its own
`LIST_ITEM_KEYS` table (claim C6 is right about the intent; the code has the
bug). -/
theorem C6_element_list_whole_modified :
    listItemKey ["chemical_properties", "composition", "other_elements"] = some "element"
    ∧ find_changes (recWithCrMin 10) (recWithCrMin 11) =
      [⟨["chemical_properties", "composition", "composition[GOST]", "other_elements"],
        .modified,
        some (.arr [.obj [("element", .str "Cr"), ("min_value", .num 10)]]),
        some (.arr [.obj [("element", .str "Cr"), ("min_value", .num 11)]])⟩] :=
  ⟨rfl, rfl⟩

/-! ## Lemmas about the diff engine -/

theorem flatMap_eq_nil_of {α β : Type} :
    ∀ (ks : List α) (f : α → List β), (∀ k ∈ ks, f k = []) → ks.flatMap f = []
  | [], _, _ => rfl
  | k :: rest, f, h => by
    simp only [List.flatMap_cons, h k (List.mem_cons_self _ _), List.nil_append]
    exact flatMap_eq_nil_of rest f fun k' hk => h k' (List.mem_cons_of_mem _ hk)

theorem jlookup_mem : ∀ {o : List (String × J)} {k : String} {v : J},
    jlookup o k = some v → (k, v) ∈ o
  | [], _, _, h => by simp [jlookup] at h
  | (k', v') :: rest, k, v, h => by
    by_cases hk : k' = k
    · simp only [jlookup, if_pos hk] at h
      cases h
      subst hk
      exact List.mem_cons_self _ _
    · simp only [jlookup, if_neg hk] at h
      exact List.mem_cons_of_mem _ (jlookup_mem h)

theorem jlookup_stripO : ∀ (o : List (String × J)) (k : String), volatileKey k = false →
    jlookup (stripO o) k = (jlookup o k).map strip
  | [], _, _ => rfl
  | (k', v') :: rest, k, hk => by
    by_cases he : k' = k
    · subst he
      simp [stripO, hk, jlookup]
    · by_cases hvol : volatileKey k' = true
      · simp only [stripO, if_pos hvol, jlookup, if_neg he]
        exact jlookup_stripO rest k hk
      · simp only [stripO, if_neg hvol, jlookup, if_neg he]
        exact jlookup_stripO rest k hk

theorem strip_isNull : ∀ v : J, (strip v).isNull = v.isNull
  | .null => rfl
  | .num _ => rfl
  | .str _ => rfl
  | .arr _ => rfl
  | .obj _ => rfl

theorem strip_eq_null_iff : ∀ v : J, strip v = J.null ↔ v = J.null
  | .null => by simp [strip]
  | .num _ => by simp [strip]
  | .str _ => by simp [strip]
  | .arr _ => by simp [strip]
  | .obj _ => by simp [strip]

theorem stripL_eq_map : ∀ l : List J, stripL l = l.map strip
  | [] => rfl
  | x :: xs => by simp only [stripL, List.map_cons, stripL_eq_map xs]

mutual
theorem strip_of_noVol : ∀ d : J, noVol d = true → strip d = d
  | .null, _ => rfl
  | .num _, _ => rfl
  | .str _, _ => rfl
  | .arr l, h => by
    simp only [strip]
    rw [stripL_of_noVol l (by simpa [noVol] using h)]
  | .obj o, h => by
    simp only [strip]
    rw [stripO_of_noVol o (by simpa [noVol] using h)]

theorem stripL_of_noVol : ∀ l : List J, noVolL l = true → stripL l = l
  | [], _ => rfl
  | x :: xs, h => by
    have h' := by simpa [noVolL, Bool.and_eq_true] using h
    simp only [stripL]
    rw [strip_of_noVol x h'.1, stripL_of_noVol xs h'.2]

theorem stripO_of_noVol : ∀ o : List (String × J), noVolO o = true → stripO o = o
  | [], _ => rfl
  | (k, v) :: rest, h => by
    have h' : (volatileKey k = false ∧ noVol v = true) ∧ noVolO rest = true := by
      simpa [noVolO, Bool.and_eq_true] using h
    simp [stripO, h'.1.1, strip_of_noVol v h'.1.2, stripO_of_noVol rest h'.2]
end

theorem cleanVolO_forall : ∀ {o : List (String × J)} {path : List String},
    cleanVolO o path = true → ∀ k v, (k, v) ∈ o → volatileKey k = false →
      cleanVol v (path ++ [k]) = true
  | [], _, _, _, _, hm, _ => by simp at hm
  | (k', v') :: rest, path, h, k, v, hm, hk => by
    have h' : (volatileKey k' = true ∨ cleanVol v' (path ++ [k']) = true) ∧
        cleanVolO rest path = true := by
      simpa [cleanVolO, Bool.and_eq_true, Bool.or_eq_true] using h
    rcases List.mem_cons.mp hm with he | he
    · have he1 : k = k' := congrArg Prod.fst he
      have he2 : v = v' := congrArg Prod.snd he
      subst he1
      subst he2
      rcases h'.1 with hvol | hcv
      · rw [hk] at hvol
        exact absurd hvol (by simp)
      · exact hcv
    · exact cleanVolO_forall h'.2 k v he hk

theorem cleanVolL_forall : ∀ {l : List J} {path : List String} {ukey : String},
    cleanVolL l path ukey = true → ∀ i ∈ l,
      cleanVol i (path ++ [segFor path ((itemKey i ukey).getD .null)]) = true
  | [], _, _, _, _, hm => by simp at hm
  | item :: rest, path, ukey, h, i, hm => by
    have h' : cleanVol item (path ++ [segFor path ((itemKey item ukey).getD .null)]) = true ∧
        cleanVolL rest path ukey = true := by
      simpa [cleanVolL, Bool.and_eq_true] using h
    rcases List.mem_cons.mp hm with he | he
    · subst he
      exact h'.1
    · exact cleanVolL_forall h'.2 i he

/-- Unique keys in a dict representation (true of every Python dict). -/
def nodupKeys : List (String × J) → Bool
  | [] => true
  | (k, _) :: rest => !(rest.any (fun p => p.1 == k)) && nodupKeys rest

mutual
/-- Well-formed JSON tree: every dict has unique keys (always true of data
produced by `json.load` or Python dict literals). -/
def jwf : J → Bool
  | .null => true
  | .num _ => true
  | .str _ => true
  | .arr l => jwfL l
  | .obj o => nodupKeys o && jwfO o

def jwfL : List J → Bool
  | [] => true
  | x :: xs => jwf x && jwfL xs

def jwfO : List (String × J) → Bool
  | [] => true
  | (_, v) :: rest => jwf v && jwfO rest
end

theorem jlookup_nodup : ∀ {o : List (String × J)} {k : String} {v : J},
    nodupKeys o = true → (k, v) ∈ o → jlookup o k = some v
  | [], _, _, _, hm => by simp at hm
  | (k', v') :: rest, k, v, hnd, hm => by
    have h' : (rest.any (fun p => p.1 == k') = false) ∧ nodupKeys rest = true := by
      simpa [nodupKeys, Bool.and_eq_true] using hnd
    rcases List.mem_cons.mp hm with he | he
    · have he1 : k = k' := congrArg Prod.fst he
      have he2 : v = v' := congrArg Prod.snd he
      subst he1
      subst he2
      simp [jlookup]
    · have hk : k' ≠ k := by
        intro hc
        subst hc
        have : rest.any (fun p => p.1 == k') = true :=
          List.any_eq_true.mpr ⟨(k', v), he, by simp⟩
        rw [h'.1] at this
        exact absurd this (by simp)
      simp only [jlookup, if_neg hk]
      exact jlookup_nodup h'.2 he

theorem jwfO_forall : ∀ {o : List (String × J)}, jwfO o = true →
    ∀ k v, (k, v) ∈ o → jwf v = true
  | [], _, _, _, hm => by simp at hm
  | (k', v') :: rest, h, k, v, hm => by
    have h' : jwf v' = true ∧ jwfO rest = true := by
      simpa [jwfO, Bool.and_eq_true] using h
    rcases List.mem_cons.mp hm with he | he
    · have he2 : v = v' := congrArg Prod.snd he
      subst he2
      exact h'.1
    · exact jwfO_forall h'.2 k v he

theorem jwfL_forall : ∀ {l : List J}, jwfL l = true → ∀ i ∈ l, jwf i = true
  | [], _, _, hm => by simp at hm
  | x :: xs, h, i, hm => by
    have h' : jwf x = true ∧ jwfL xs = true := by
      simpa [jwfL, Bool.and_eq_true] using h
    rcases List.mem_cons.mp hm with he | he
    · subst he
      exact h'.1
    · exact jwfL_forall h'.2 i he

theorem jwf_dget {o : List (String × J)} {k : String} (h : jwf (J.obj o) = true) :
    jwf (dgetJ o k) = true := by
  have h' : jwfO o = true := by
    have := by simpa [jwf, Bool.and_eq_true] using h
    exact this.2
  unfold dgetJ
  cases hl : jlookup o k with
  | none => rfl
  | some v => exact jwfO_forall h' k v (jlookup_mem hl)

mutual
theorem jeq_refl : ∀ d : J, jwf d = true → jeq d d = true
  | .null, _ => rfl
  | .num q, _ => by simp [jeq]
  | .str s, _ => by simp [jeq]
  | .arr l, h => by
    simp only [jeq]
    exact jeqL_refl l (by simpa [jwf] using h)
  | .obj o, h => by
    have h' : nodupKeys o = true ∧ jwfO o = true := by
      simpa [jwf, Bool.and_eq_true] using h
    simp only [jeq, beq_self_eq_true, Bool.true_and]
    exact jeqO_self o o h'.2 fun k v hm => jlookup_nodup h'.1 hm

theorem jeqL_refl : ∀ l : List J, jwfL l = true → jeqL l l = true
  | [], _ => rfl
  | x :: xs, h => by
    have h' : jwf x = true ∧ jwfL xs = true := by
      simpa [jwfL, Bool.and_eq_true] using h
    simp only [jeqL, Bool.and_eq_true]
    exact ⟨jeq_refl x h'.1, jeqL_refl xs h'.2⟩

theorem jeqO_self : ∀ (o' o : List (String × J)), jwfO o' = true →
    (∀ k v, (k, v) ∈ o' → jlookup o k = some v) → jeqO o' o = true
  | [], _, _, _ => rfl
  | (k, v) :: rest, o, hwf, hlk => by
    have h' : jwf v = true ∧ jwfO rest = true := by
      simpa [jwfO, Bool.and_eq_true] using hwf
    simp only [jeqO, hlk k v (List.mem_cons_self _ _), Bool.and_eq_true]
    exact ⟨jeq_refl v h'.1,
      jeqO_self rest o h'.2 fun k' v' hm => hlk k' v' (List.mem_cons_of_mem _ hm)⟩
end

theorem mapInsert_snd_sub : ∀ (m : List (J × J)) (k v : J) (x : J),
    x ∈ (mapInsert m k v).map Prod.snd → x = v ∨ x ∈ m.map Prod.snd
  | [], k, v, x, h => by
    simp only [mapInsert, List.map_cons, List.map_nil, List.mem_singleton] at h
    exact Or.inl h
  | (k', v') :: rest, k, v, x, h => by
    by_cases hj : jeq k' k = true
    · simp only [mapInsert, if_pos hj, List.map_cons, List.mem_cons] at h
      rcases h with h | h
      · exact Or.inl h
      · exact Or.inr (by simp [h])
    · simp only [mapInsert, if_neg hj, List.map_cons, List.mem_cons] at h
      rcases h with h | h
      · exact Or.inr (by simp [h])
      · rcases mapInsert_snd_sub rest k v x h with h' | h'
        · exact Or.inl h'
        · exact Or.inr (by simp [List.mem_cons]; exact Or.inr (by simpa using h'))

theorem foldl_bmStep_snd_sub (ukey : String) : ∀ (l : List J) (m : List (J × J)) (x : J),
    x ∈ ((l.foldl (bmStep ukey) m).map Prod.snd) → x ∈ l ∨ x ∈ m.map Prod.snd
  | [], m, x, h => Or.inr h
  | item :: rest, m, x, h => by
    simp only [List.foldl_cons] at h
    rcases foldl_bmStep_snd_sub ukey rest (bmStep ukey m item) x h with h' | h'
    · exact Or.inl (List.mem_cons_of_mem _ h')
    · unfold bmStep at h'
      cases hik : itemKey item ukey with
      | none =>
        rw [hik] at h'
        exact Or.inr h'
      | some kv =>
        rw [hik] at h'
        rcases mapInsert_snd_sub m kv item x h' with h'' | h''
        · exact Or.inl (by simp [h''])
        · exact Or.inr h''

theorem buildMap_snd_sub (ukey : String) (l : List J) (x : J)
    (h : x ∈ (buildMap ukey l).map Prod.snd) : x ∈ l := by
  rcases foldl_bmStep_snd_sub ukey l [] x h with h' | h'
  · exact h'
  · simp at h'

theorem mlookup_mem_snd : ∀ {m : List (J × J)} {k v : J},
    mlookup m k = some v → v ∈ m.map Prod.snd
  | [], _, _, h => by simp [mlookup] at h
  | (k', v') :: rest, k, v, h => by
    by_cases hj : jeq k' k = true
    · simp only [mlookup, if_pos hj] at h
      cases h
      simp
    · simp only [mlookup, if_neg hj] at h
      simp only [List.map_cons, List.mem_cons]
      exact Or.inr (mlookup_mem_snd h)

/-- `find_changes_recursive(d, d, path)` produces no entries: every guard of
the recursion compares two equal values. -/
theorem fcr_refl : ∀ (n : Nat) (d : J) (p : List String), jwf d = true → fcr n d d p = []
  | 0, _, _, _ => rfl
  | n + 1, .null, p, h => rfl
  | n + 1, .num q, p, h => by simp [fcr, jeq]
  | n + 1, .str s, p, h => by simp [fcr, jeq]
  | n + 1, .obj o, p, h => by
    simp only [fcr]
    apply flatMap_eq_nil_of
    intro k hk
    by_cases hvol : volatileKey k = true
    · simp [hvol]
    · have hj : jeq (dgetJ o k) (dgetJ o k) = true := jeq_refl _ (jwf_dget h)
      cases hnull : (dgetJ o k).isNull <;>
        simp [hvol, hnull, hj]
  | n + 1, .arr l, p, h => by
    have hwl : jwfL l = true := by simpa [jwf] using h
    simp only [fcr]
    cases hku : listItemKey p with
    | none =>
      simp [jeq_refl _ h]
    | some ukey =>
      by_cases hall : ((l ++ l).all (fun item => (itemKey item ukey).isSome)) = true
      · simp only [hall, if_pos rfl]
        apply flatMap_eq_nil_of
        intro ik hik
        cases hml : mlookup (buildMap ukey l) ik with
        | none => simp [hml]
        | some oi =>
          have hoi : oi ∈ l := buildMap_snd_sub ukey l oi (mlookup_mem_snd hml)
          have hj : jeq oi oi = true := jeq_refl oi (jwfL_forall hwl oi hoi)
          simp [hml, hj]
      · simp [hall, jeq_refl _ h]

/-- A non-record document with a volatile key inside a plain
(non-identity-keyed) list. -/
def volInPlainList (tag : String) : J :=
  .obj [("x", .arr [.obj [("property_last_updated", .str tag)]])]

/-- Two documents equal except for a `property_last_updated` value nested
inside a plain list: the diff is not empty — the whole list is reported as
`modified`, because the volatile-key exclusion only applies where the engine
compares dict fields. -/
theorem C4_volatile_in_plain_list_cex :
    strip (volInPlainList "a") = strip (volInPlainList "b")
    ∧ find_changes (volInPlainList "a") (volInPlainList "b") =
        [⟨["x"], .modified,
          some (.arr [.obj [("property_last_updated", .str "a")]]),
          some (.arr [.obj [("property_last_updated", .str "b")]])⟩]
    ∧ find_changes (volInPlainList "a") (volInPlainList "b") ≠ [] := by
  refine ⟨rfl, rfl, ?_⟩
  intro h
  rw [show find_changes (volInPlainList "a") (volInPlainList "b") =
    [⟨["x"], .modified, some (.arr [.obj [("property_last_updated", .str "a")]]),
      some (.arr [.obj [("property_last_updated", .str "b")]])⟩] from rfl] at h
  exact List.cons_ne_nil _ _ h

theorem isNull_iff : ∀ v : J, v.isNull = true ↔ v = J.null
  | .null => by simp [J.isNull]
  | .num _ => by simp [J.isNull]
  | .str _ => by simp [J.isNull]
  | .arr _ => by simp [J.isNull]
  | .obj _ => by simp [J.isNull]

theorem jeq_str_left : ∀ (a : String) (x : J), jeq (J.str a) x = true ↔ x = J.str a
  | a, .null => by simp [jeq]
  | a, .num _ => by simp [jeq]
  | a, .str b => by
    show (a == b) = true ↔ J.str b = J.str a
    constructor
    · intro h
      rw [eq_of_beq h]
    · intro h
      injection h with h'
      rw [h']
      exact beq_self_eq_true a
  | a, .arr _ => by simp [jeq]
  | a, .obj _ => by simp [jeq]

theorem strip_eq_str_iff : ∀ (x : J) (s : String), strip x = J.str s ↔ x = J.str s
  | .null, _ => by simp [strip]
  | .num _, _ => by simp [strip]
  | .str _, _ => by simp [strip]
  | .arr _, _ => by simp [strip]
  | .obj _, _ => by simp [strip]

theorem itemKey_strip (i : J) (ukey : String) (h : volatileKey ukey = false) :
    itemKey (strip i) ukey = (itemKey i ukey).map strip := by
  match i with
  | .null => rfl
  | .num _ => rfl
  | .str _ => rfl
  | .arr _ => rfl
  | .obj o =>
    simp only [strip, itemKey]
    exact jlookup_stripO o ukey h

theorem listItemKey_not_volatile {p : List String} {u : String}
    (h : listItemKey p = some u) : volatileKey u = false := by
  unfold listItemKey at h
  cases hf : LIST_ITEM_KEYS.find? (fun q => q.1 = p) with
  | none => rw [hf] at h; simp at h
  | some pr =>
    rw [hf] at h
    simp only [Option.some.injEq] at h
    subst h
    have hm := List.mem_of_find?_eq_some hf
    simp only [LIST_ITEM_KEYS, List.mem_cons, List.mem_singleton, List.not_mem_nil,
      or_false] at hm
    rcases hm with h | h | h <;> rw [h] <;> decide

theorem isStrKey_congr {i1 i2 : J} {u : String} (hvol : volatileKey u = false)
    (hs : strip i1 = strip i2) : isStrKey i1 u = isStrKey i2 u := by
  have hik : (itemKey i1 u).map strip = (itemKey i2 u).map strip := by
    rw [← itemKey_strip i1 u hvol, ← itemKey_strip i2 u hvol, hs]
  unfold isStrKey
  cases h1 : itemKey i1 u with
  | none =>
    rw [h1] at hik
    cases h2 : itemKey i2 u with
    | none => rfl
    | some v2 => rw [h2] at hik; simp at hik
  | some v1 =>
    rw [h1] at hik
    cases h2 : itemKey i2 u with
    | none => rw [h2] at hik; simp at hik
    | some v2 =>
      rw [h2] at hik
      simp only [Option.map_some', Option.some.injEq] at hik
      cases v1 <;> cases v2 <;> simp_all [strip]

theorem strKeyVal_eq {i1 i2 : J} {u : String} (hvol : volatileKey u = false)
    (hs : strip i1 = strip i2) (h1 : isStrKey i1 u = true) :
    itemKey i1 u = itemKey i2 u := by
  have hik : (itemKey i1 u).map strip = (itemKey i2 u).map strip := by
    rw [← itemKey_strip i1 u hvol, ← itemKey_strip i2 u hvol, hs]
  unfold isStrKey at h1
  cases hk1 : itemKey i1 u with
  | none => rw [hk1] at h1; simp at h1
  | some v1 =>
    rw [hk1] at h1
    cases v1 with
    | str s =>
      rw [hk1] at hik
      cases hk2 : itemKey i2 u with
      | none => rw [hk2] at hik; simp at hik
      | some v2 =>
        rw [hk2] at hik
        simp only [Option.map_some', Option.some.injEq, strip] at hik
        rw [(strip_eq_str_iff v2 s).mp hik.symm]
    | null => simp at h1
    | num q => simp at h1
    | arr l => simp at h1
    | obj o => simp at h1

/-- Correspondence between the two identity-key maps built from two lists that
are equal up to volatile fields: same keys, values equal up to volatile
fields. -/
def MRel (p1 p2 : J × J) : Prop := p1.1 = p2.1 ∧ strip p1.2 = strip p2.2

theorem mapInsert_MR : ∀ {m1 m2 : List (J × J)}, List.Forall₂ MRel m1 m2 →
    ∀ (k v1 v2 : J), strip v1 = strip v2 →
    List.Forall₂ MRel (mapInsert m1 k v1) (mapInsert m2 k v2)
  | [], [], _, k, v1, v2, hv => List.Forall₂.cons ⟨rfl, hv⟩ List.Forall₂.nil
  | (k1, w1) :: r1, (k2, w2) :: r2, h, k, v1, v2, hv => by
    rcases h with _ | ⟨⟨hk, hw⟩, hrest⟩
    simp only at hk hw
    subst hk
    by_cases hj : jeq k1 k = true
    · simp only [mapInsert, if_pos hj]
      exact List.Forall₂.cons ⟨rfl, hv⟩ hrest
    · simp only [mapInsert, if_neg hj]
      exact List.Forall₂.cons ⟨rfl, hw⟩ (mapInsert_MR hrest k v1 v2 hv)

theorem mlookup_MR : ∀ {m1 m2 : List (J × J)}, List.Forall₂ MRel m1 m2 →
    ∀ ik : J, (mlookup m1 ik = none ∧ mlookup m2 ik = none) ∨
      (∃ oi ni, mlookup m1 ik = some oi ∧ mlookup m2 ik = some ni ∧ strip oi = strip ni)
  | [], [], _, ik => Or.inl ⟨rfl, rfl⟩
  | (k1, w1) :: r1, (k2, w2) :: r2, h, ik => by
    rcases h with _ | ⟨⟨hk, hw⟩, hrest⟩
    simp only at hk hw
    subst hk
    by_cases hj : jeq k1 ik = true
    · exact Or.inr ⟨w1, w2, by simp [mlookup, if_pos hj], by simp [mlookup, if_pos hj], hw⟩
    · simp only [mlookup, if_neg hj]
      exact mlookup_MR hrest ik

theorem foldl_bmStep_MR (u : String) (hvol : volatileKey u = false) :
    ∀ (l1 l2 : List J) (m1 m2 : List (J × J)),
      l1.map strip = l2.map strip →
      l1.all (fun i => isStrKey i u) = true →
      List.Forall₂ MRel m1 m2 →
      List.Forall₂ MRel (l1.foldl (bmStep u) m1) (l2.foldl (bmStep u) m2)
  | [], [], m1, m2, _, _, hm => hm
  | [], i2 :: r2, m1, m2, hmap, _, _ => by simp at hmap
  | i1 :: r1, [], m1, m2, hmap, _, _ => by simp at hmap
  | i1 :: r1, i2 :: r2, m1, m2, hmap, hstr, hm => by
    simp only [List.map_cons, List.cons.injEq] at hmap
    obtain ⟨hs, hrest⟩ := hmap
    have hstr' : isStrKey i1 u = true ∧ r1.all (fun i => isStrKey i u) = true := by
      simpa [List.all_cons, Bool.and_eq_true] using hstr
    have hik : itemKey i1 u = itemKey i2 u := strKeyVal_eq hvol hs hstr'.1
    simp only [List.foldl_cons]
    apply foldl_bmStep_MR u hvol r1 r2 _ _ hrest hstr'.2
    unfold bmStep
    rw [← hik]
    cases hk : itemKey i1 u with
    | none => exact hm
    | some kv => exact mapInsert_MR hm kv i1 i2 hs

theorem mlookup_entry : ∀ {m : List (J × J)} {ik oi : J}, mlookup m ik = some oi →
    ∃ k', (k', oi) ∈ m ∧ jeq k' ik = true
  | [], _, _, h => by simp [mlookup] at h
  | (k', v') :: rest, ik, oi, h => by
    by_cases hj : jeq k' ik = true
    · simp only [mlookup, if_pos hj, Option.some.injEq] at h
      subst h
      exact ⟨k', List.mem_cons_self _ _, hj⟩
    · simp only [mlookup, if_neg hj] at h
      obtain ⟨k'', hm, hj'⟩ := mlookup_entry h
      exact ⟨k'', List.mem_cons_of_mem _ hm, hj'⟩

theorem mapInsert_entry_inv {u : String} : ∀ {m : List (J × J)} {k v : J},
    (∀ p ∈ m, (∃ s, p.1 = J.str s) ∧ itemKey p.2 u = some p.1) →
    (∃ s, k = J.str s) → itemKey v u = some k →
    ∀ p ∈ mapInsert m k v, (∃ s, p.1 = J.str s) ∧ itemKey p.2 u = some p.1
  | [], k, v, _, hk, hv, p, hp => by
    simp only [mapInsert, List.mem_singleton] at hp
    subst hp
    exact ⟨hk, hv⟩
  | (k', v') :: rest, k, v, hm, hk, hv, p, hp => by
    by_cases hj : jeq k' k = true
    · simp only [mapInsert, if_pos hj, List.mem_cons] at hp
      rcases hp with hp | hp
      · subst hp
        obtain ⟨s', hs'⟩ := (hm (k', v') (List.mem_cons_self _ _)).1
        have hs'' : k' = J.str s' := hs'
        obtain ⟨s, hs⟩ := hk
        subst hs''
        subst hs
        have hj' : jeq (J.str s') (J.str s) = true := hj
        have hse : J.str s = J.str s' := (jeq_str_left s' (J.str s)).mp hj'
        refine ⟨⟨s', rfl⟩, ?_⟩
        rw [hv, hse]
      · exact hm p (List.mem_cons_of_mem _ hp)
    · simp only [mapInsert, if_neg hj, List.mem_cons] at hp
      rcases hp with hp | hp
      · subst hp
        exact hm (k', v') (List.mem_cons_self _ _)
      · exact mapInsert_entry_inv (fun q hq => hm q (List.mem_cons_of_mem _ hq)) hk hv p hp

theorem foldl_bmStep_entry_inv (u : String) : ∀ (l : List J) (m : List (J × J)),
    l.all (fun i => isStrKey i u) = true →
    (∀ p ∈ m, (∃ s, p.1 = J.str s) ∧ itemKey p.2 u = some p.1) →
    ∀ p ∈ l.foldl (bmStep u) m, (∃ s, p.1 = J.str s) ∧ itemKey p.2 u = some p.1
  | [], m, _, hm, p, hp => hm p hp
  | i :: rest, m, hstr, hm, p, hp => by
    have hstr' : isStrKey i u = true ∧ rest.all (fun j => isStrKey j u) = true := by
      simpa [List.all_cons, Bool.and_eq_true] using hstr
    simp only [List.foldl_cons] at hp
    apply foldl_bmStep_entry_inv u rest _ hstr'.2 _ p hp
    intro q hq
    unfold bmStep at hq
    unfold isStrKey at hstr'
    cases hk : itemKey i u with
    | none => rw [hk] at hstr'; simp at hstr'
    | some kv =>
      rw [hk] at hq
      cases kv with
      | str s => exact mapInsert_entry_inv hm ⟨s, rfl⟩ hk q hq
      | null => rw [hk] at hstr'; simp at hstr'
      | num q' => rw [hk] at hstr'; simp at hstr'
      | arr l' => rw [hk] at hstr'; simp at hstr'
      | obj o' => rw [hk] at hstr'; simp at hstr'

theorem buildMap_entry_inv (u : String) (l : List J)
    (hstr : l.all (fun i => isStrKey i u) = true) :
    ∀ p ∈ buildMap u l, (∃ s, p.1 = J.str s) ∧ itemKey p.2 u = some p.1 :=
  foldl_bmStep_entry_inv u l [] hstr (by simp)

theorem jdedupGo_sub : ∀ (seen l : List J) (x : J), x ∈ jdedupGo seen l → x ∈ l
  | seen, [], x, h => by simp [jdedupGo] at h
  | seen, y :: rest, x, h => by
    by_cases hy : (seen.any fun z => jeq z y) = true
    · simp only [jdedupGo, if_pos hy] at h
      exact List.mem_cons_of_mem _ (jdedupGo_sub seen rest x h)
    · simp only [jdedupGo, if_neg hy, List.mem_cons] at h
      rcases h with h | h
      · simp [h]
      · exact List.mem_cons_of_mem _ (jdedupGo_sub (y :: seen) rest x h)

theorem sortedUnionJ_sub {ks1 ks2 : List J} {x : J} (h : x ∈ sortedUnionJ ks1 ks2) :
    x ∈ ks1 ∨ x ∈ ks2 := by
  have h1 : x ∈ jdedupGo [] (ks1 ++ ks2) :=
    (List.perm_insertionSort _ _).subset h
  exact List.mem_append.mp (jdedupGo_sub [] _ x h1)

theorem allStr_congr {u : String} (hvol : volatileKey u = false) :
    ∀ {l1 l2 : List J}, l1.map strip = l2.map strip →
      l1.all (fun i => isStrKey i u) = l2.all (fun i => isStrKey i u)
  | [], [], _ => rfl
  | [], _ :: _, h => by simp at h
  | _ :: _, [], h => by simp at h
  | i1 :: r1, i2 :: r2, h => by
    simp only [List.map_cons, List.cons.injEq] at h
    simp only [List.all_cons, isStrKey_congr hvol h.1, allStr_congr hvol h.2]

theorem isStrKey_isSome {i : J} {u : String} (h : isStrKey i u = true) :
    (itemKey i u).isSome = true := by
  unfold isStrKey at h
  cases hk : itemKey i u with
  | none => rw [hk] at h; simp at h
  | some v => simp

/-- Core of the amended C4: two documents equal up to the volatile fields
produce an empty change list, provided the volatile fields sit where the
engine's exclusion applies (`cleanVol`) and the dicts are well-formed. -/
theorem fcr_strip_eq : ∀ (n : Nat) (d1 d2 : J) (path : List String),
    jwf d1 = true → jwf d2 = true →
    cleanVol d1 path = true → cleanVol d2 path = true →
    strip d1 = strip d2 → fcr n d1 d2 path = []
  | 0, _, _, _, _, _, _, _, _ => rfl
  | _ + 1, .null, .null, _, _, _, _, _, _ => rfl
  | _ + 1, .null, .num _, _, _, _, _, _, hs => by simp [strip] at hs
  | _ + 1, .null, .str _, _, _, _, _, _, hs => by simp [strip] at hs
  | _ + 1, .null, .arr _, _, _, _, _, _, hs => by simp [strip] at hs
  | _ + 1, .null, .obj _, _, _, _, _, _, hs => by simp [strip] at hs
  | _ + 1, .num _, .null, _, _, _, _, _, hs => by simp [strip] at hs
  | _ + 1, .num q1, .num q2, path, _, _, _, _, hs => by
    have hq : q1 = q2 := by simpa [strip] using hs
    subst hq
    simp [fcr, jeq]
  | _ + 1, .num _, .str _, _, _, _, _, _, hs => by simp [strip] at hs
  | _ + 1, .num _, .arr _, _, _, _, _, _, hs => by simp [strip] at hs
  | _ + 1, .num _, .obj _, _, _, _, _, _, hs => by simp [strip] at hs
  | _ + 1, .str _, .null, _, _, _, _, _, hs => by simp [strip] at hs
  | _ + 1, .str _, .num _, _, _, _, _, _, hs => by simp [strip] at hs
  | _ + 1, .str s1, .str s2, path, _, _, _, _, hs => by
    have hq : s1 = s2 := by simpa [strip] using hs
    subst hq
    simp [fcr, jeq]
  | _ + 1, .str _, .arr _, _, _, _, _, _, hs => by simp [strip] at hs
  | _ + 1, .str _, .obj _, _, _, _, _, _, hs => by simp [strip] at hs
  | _ + 1, .arr _, .null, _, _, _, _, _, hs => by simp [strip] at hs
  | _ + 1, .arr _, .num _, _, _, _, _, _, hs => by simp [strip] at hs
  | _ + 1, .arr _, .str _, _, _, _, _, _, hs => by simp [strip] at hs
  | _ + 1, .arr _, .obj _, _, _, _, _, _, hs => by simp [strip] at hs
  | _ + 1, .obj _, .null, _, _, _, _, _, hs => by simp [strip] at hs
  | _ + 1, .obj _, .num _, _, _, _, _, _, hs => by simp [strip] at hs
  | _ + 1, .obj _, .str _, _, _, _, _, _, hs => by simp [strip] at hs
  | _ + 1, .obj _, .arr _, _, _, _, _, _, hs => by simp [strip] at hs
  | n + 1, .obj o1, .obj o2, path, hw1, hw2, hc1, hc2, hs => by
    have hso : stripO o1 = stripO o2 := by simpa [strip] using hs
    simp only [fcr]
    apply flatMap_eq_nil_of
    intro k hk
    dsimp only
    by_cases hvol : volatileKey k = true
    · rw [if_pos hvol]
    · rw [if_neg hvol]
      have hvol' : volatileKey k = false := by simpa using hvol
      have hkey : (jlookup o1 k).map strip = (jlookup o2 k).map strip := by
        rw [← jlookup_stripO o1 k hvol', ← jlookup_stripO o2 k hvol', hso]
      cases h1 : jlookup o1 k with
      | none =>
        cases h2 : jlookup o2 k with
        | none => simp [dgetJ, h1, h2, J.isNull, jeq]
        | some v2 => rw [h1, h2] at hkey; simp at hkey
      | some v1 =>
        cases h2 : jlookup o2 k with
        | none => rw [h1, h2] at hkey; simp at hkey
        | some v2 =>
          rw [h1, h2] at hkey
          simp only [Option.map_some', Option.some.injEq] at hkey
          have hd1 : dgetJ o1 k = v1 := by simp [dgetJ, h1]
          have hd2 : dgetJ o2 k = v2 := by simp [dgetJ, h2]
          rw [hd1, hd2]
          cases hn1 : v1.isNull with
          | true =>
            have hv1 : v1 = J.null := (isNull_iff v1).mp hn1
            have hv2 : v2 = J.null := by
              apply (strip_eq_null_iff v2).mp
              rw [← hkey, hv1]
              rfl
            subst hv1
            subst hv2
            simp [J.isNull, jeq]
          | false =>
            have hn2 : v2.isNull = false := by
              rw [← strip_isNull v2, ← hkey, strip_isNull v1, hn1]
            by_cases hj : jeq v1 v2 = true
            · simp [hn1, hn2, hj]
            · simp only [hn1, hn2, Bool.false_and, Bool.and_false, Bool.not_false,
                Bool.true_and, Bool.and_true, Bool.false_eq_true, if_neg (by simp : ¬ False),
                if_neg hj]
              exact fcr_strip_eq n v1 v2 (path ++ [k])
                (jwfO_forall (by
                  have h' : nodupKeys o1 = true ∧ jwfO o1 = true := by
                    simpa [jwf, Bool.and_eq_true] using hw1
                  exact h'.2) k v1 (jlookup_mem h1))
                (jwfO_forall (by
                  have h' : nodupKeys o2 = true ∧ jwfO o2 = true := by
                    simpa [jwf, Bool.and_eq_true] using hw2
                  exact h'.2) k v2 (jlookup_mem h2))
                (cleanVolO_forall hc1 k v1 (jlookup_mem h1) hvol')
                (cleanVolO_forall hc2 k v2 (jlookup_mem h2) hvol')
                hkey
  | n + 1, .arr l1, .arr l2, path, hw1, hw2, hc1, hc2, hs => by
    have hsl : l1.map strip = l2.map strip := by
      have h' : stripL l1 = stripL l2 := by simpa [strip] using hs
      rw [← stripL_eq_map, ← stripL_eq_map]
      exact h'
    have hwl1 : jwfL l1 = true := by simpa [jwf] using hw1
    have hwl2 : jwfL l2 = true := by simpa [jwf] using hw2
    simp only [fcr]
    cases hku : listItemKey path with
    | none =>
      have hnv1 : noVol (.arr l1) = true := by
        have hc := hc1
        simp only [cleanVol, hku] at hc
        exact hc
      have hnv2 : noVol (.arr l2) = true := by
        have hc := hc2
        simp only [cleanVol, hku] at hc
        exact hc
      have hl12 : l1 = l2 := by
        have e1 := strip_of_noVol (.arr l1) hnv1
        have e2 := strip_of_noVol (.arr l2) hnv2
        have he : J.arr l1 = J.arr l2 := by rw [← e1, ← e2]; exact hs
        exact J.arr.inj he
      subst hl12
      simp [jeq_refl _ hw1]
    | some ukey =>
      dsimp only
      have hvolu : volatileKey ukey = false := listItemKey_not_volatile hku
      by_cases hstr1 : l1.all (fun i => isStrKey i ukey) = true
      · have hstr2 : l2.all (fun i => isStrKey i ukey) = true := by
          rw [← allStr_congr hvolu hsl]
          exact hstr1
        have hcl1 : cleanVolL l1 path ukey = true := by
          have hc := hc1
          simp only [cleanVol, hku, if_pos hstr1] at hc
          exact hc
        have hcl2 : cleanVolL l2 path ukey = true := by
          have hc := hc2
          simp only [cleanVol, hku, if_pos hstr2] at hc
          exact hc
        have hall : ((l1 ++ l2).all fun item => (itemKey item ukey).isSome) = true := by
          rw [List.all_append]
          have ha1 : (l1.all fun item => (itemKey item ukey).isSome) = true :=
            List.all_eq_true.mpr fun i hi =>
              isStrKey_isSome (List.all_eq_true.mp hstr1 i hi)
          have ha2 : (l2.all fun item => (itemKey item ukey).isSome) = true :=
            List.all_eq_true.mpr fun i hi =>
              isStrKey_isSome (List.all_eq_true.mp hstr2 i hi)
          rw [ha1, ha2]
          rfl
        rw [if_pos hall]
        apply flatMap_eq_nil_of
        intro ik hik
        dsimp only
        have hMR : List.Forall₂ MRel (buildMap ukey l1) (buildMap ukey l2) :=
          foldl_bmStep_MR ukey hvolu l1 l2 [] [] hsl hstr1 List.Forall₂.nil
        rcases mlookup_MR hMR ik with ⟨hm1, hm2⟩ | ⟨oi, ni, hm1, hm2, hsoi⟩
        · rw [hm1, hm2]
        · rw [hm1, hm2]
          dsimp only
          by_cases hj : jeq oi ni = true
          · rw [if_pos hj]
          · rw [if_neg hj]
            have hoi_l : oi ∈ l1 := buildMap_snd_sub ukey l1 oi (mlookup_mem_snd hm1)
            have hni_l : ni ∈ l2 := buildMap_snd_sub ukey l2 ni (mlookup_mem_snd hm2)
            obtain ⟨k1, hk1mem, hk1jeq⟩ := mlookup_entry hm1
            have hk1prop := buildMap_entry_inv ukey l1 hstr1 (k1, oi) hk1mem
            obtain ⟨s1, hs1⟩ := hk1prop.1
            have hks1 : k1 = J.str s1 := hs1
            have hik_eq : ik = J.str s1 := by
              apply (jeq_str_left s1 ik).mp
              rw [← hks1]
              exact hk1jeq
            have hkoi : itemKey oi ukey = some ik := by
              have hp2 : itemKey oi ukey = some k1 := hk1prop.2
              rw [hp2, hks1, hik_eq]
            obtain ⟨k2, hk2mem, hk2jeq⟩ := mlookup_entry hm2
            have hk2prop := buildMap_entry_inv ukey l2 hstr2 (k2, ni) hk2mem
            obtain ⟨s2, hs2⟩ := hk2prop.1
            have hks2 : k2 = J.str s2 := hs2
            have hik_eq2 : ik = J.str s2 := by
              apply (jeq_str_left s2 ik).mp
              rw [← hks2]
              exact hk2jeq
            have hkni : itemKey ni ukey = some ik := by
              have hp2 : itemKey ni ukey = some k2 := hk2prop.2
              rw [hp2, hks2, hik_eq2]
            have hcoi : cleanVol oi (path ++ [segFor path ik]) = true := by
              have h' := cleanVolL_forall hcl1 oi hoi_l
              rw [hkoi] at h'
              simpa using h'
            have hcni : cleanVol ni (path ++ [segFor path ik]) = true := by
              have h' := cleanVolL_forall hcl2 ni hni_l
              rw [hkni] at h'
              simpa using h'
            exact fcr_strip_eq n oi ni (path ++ [segFor path ik])
              (jwfL_forall hwl1 oi hoi_l) (jwfL_forall hwl2 ni hni_l) hcoi hcni hsoi
      · have hstr2 : l2.all (fun i => isStrKey i ukey) = true → False := by
          intro h2
          exact hstr1 (by rw [allStr_congr hvolu hsl]; exact h2)
        have hnv1 : noVol (.arr l1) = true := by
          have hc := hc1
          simp only [cleanVol, hku, if_neg hstr1] at hc
          exact hc
        have hnv2 : noVol (.arr l2) = true := by
          have hc := hc2
          simp only [cleanVol, hku, if_neg hstr2] at hc
          exact hc
        have hl12 : l1 = l2 := by
          have e1 := strip_of_noVol (.arr l1) hnv1
          have e2 := strip_of_noVol (.arr l2) hnv2
          have he : J.arr l1 = J.arr l2 := by rw [← e1, ← e2]; exact hs
          exact J.arr.inj he
        subst hl12
        by_cases hall : ((l1 ++ l1).all fun item => (itemKey item ukey).isSome) = true
        · rw [if_pos hall]
          apply flatMap_eq_nil_of
          intro ik hik
          dsimp only
          cases hml : mlookup (buildMap ukey l1) ik with
          | none => rfl
          | some oi =>
            dsimp only
            have hoi_l : oi ∈ l1 := buildMap_snd_sub ukey l1 oi (mlookup_mem_snd hml)
            rw [if_pos (jeq_refl oi (jwfL_forall hwl1 oi hoi_l))]
        · rw [if_neg hall, if_pos (jeq_refl _ hw1)]

/-- C4 (amended): `find_changes` applied to a record and itself yields no
changes, and two records that agree after removing the volatile keys
`material_id` and `property_last_updated` yield no changes, provided every
volatile occurrence sits directly in a dict reached through dict nesting or
through identity-keyed list items (`cleanVol`); a volatile key buried inside
a plain (non identity-keyed) list is NOT excluded, see the counterexample. -/
theorem C4_diff_ignores_volatile (d1 d2 : J)
    (hw1 : jwf d1 = true) (hw2 : jwf d2 = true)
    (hc1 : cleanVol d1 [] = true) (hc2 : cleanVol d2 [] = true)
    (hs : strip d1 = strip d2) :
    find_changes d1 d1 = [] ∧ find_changes d1 d2 = [] := by
  unfold find_changes
  exact ⟨fcr_refl _ d1 [] hw1, fcr_strip_eq _ d1 d2 [] hw1 hw2 hc1 hc2 hs⟩

def c4rec1 : J :=
  .obj [("material_id", .str "m-001"), ("name", .str "Steel 45"),
        ("props", .obj [("property_last_updated", .str "2024-01-01"),
                        ("density", .num 7850)])]

def c4rec2 : J :=
  .obj [("material_id", .str "m-777"), ("name", .str "Steel 45"),
        ("props", .obj [("property_last_updated", .str "2025-02-02"),
                        ("density", .num 7850)])]

theorem C4_diff_ignores_volatile_witness :
    find_changes c4rec1 c4rec1 = [] ∧ find_changes c4rec1 c4rec2 = [] :=
  C4_diff_ignores_volatile c4rec1 c4rec2 rfl rfl rfl rfl rfl

theorem setKey_lookup_self : ∀ (o : List (String × J)) (k : String) (v : J),
    jlookup (setKey o k v) k = some v
  | [], k, v => by simp [setKey, jlookup]
  | (k', v') :: rest, k, v => by
    by_cases h : k' = k
    · simp [setKey, h, jlookup]
    · simp only [setKey, if_neg h, jlookup, if_neg h]
      exact setKey_lookup_self rest k v

theorem setKey_lookup_ne : ∀ (o : List (String × J)) (k k1 : String) (v : J), k1 ≠ k →
    jlookup (setKey o k v) k1 = jlookup o k1
  | [], k, k1, v, hne => by
    simp only [setKey, jlookup]
    rw [if_neg (fun h : k = k1 => hne h.symm)]
  | (k', v') :: rest, k, k1, v, hne => by
    by_cases h : k' = k
    · subst h
      simp only [setKey, if_pos rfl, jlookup]
      rw [if_neg (fun h' : k' = k1 => hne h'.symm),
          if_neg (fun h' : k' = k1 => hne h'.symm)]
    · simp only [setKey, if_neg h, jlookup]
      by_cases h1 : k' = k1
      · simp [h1]
      · simp only [if_neg h1]
        exact setKey_lookup_ne rest k k1 v hne

theorem setKey_keysOf : ∀ (o : List (String × J)) (k : String) (v v0 : J),
    jlookup o k = some v0 → keysOf (setKey o k v) = keysOf o
  | [], k, v, v0, h => by simp [jlookup] at h
  | (k', v') :: rest, k, v, v0, h => by
    by_cases hk : k' = k
    · simp [setKey, hk, keysOf]
    · simp only [jlookup, if_neg hk] at h
      simp only [setKey, if_neg hk, keysOf, List.map_cons]
      have := setKey_keysOf rest k v v0 h
      simp only [keysOf] at this
      rw [this]

theorem lookup_mem_keysOf {o : List (String × J)} {k : String} {v : J}
    (h : jlookup o k = some v) : k ∈ keysOf o := by
  have hm := jlookup_mem h
  exact List.mem_map.mpr ⟨(k, v), hm, rfl⟩

theorem mem_keysOf_lookup : ∀ {o : List (String × J)} {k : String}, k ∈ keysOf o →
    ∃ v, jlookup o k = some v := by
  intro o
  induction o with
  | nil => intro k h; simp [keysOf] at h
  | cons e rest ih =>
    intro k h
    obtain ⟨k', v'⟩ := e
    have h' : k = k' ∨ k ∈ keysOf rest := by
      have he : keysOf ((k', v') :: rest) = k' :: keysOf rest := rfl
      rw [he] at h
      exact List.mem_cons.mp h
    by_cases hk : k' = k
    · exact ⟨v', by simp [jlookup, hk]⟩
    · rcases h' with h' | h'
      · exact absurd h'.symm hk
      · obtain ⟨v, hv⟩ := ih h'
        exact ⟨v, by simpa [jlookup, if_neg hk] using hv⟩

theorem sortedUnionS_nodup (ks1 ks2 : List String) : (sortedUnionS ks1 ks2).Nodup := by
  have hperm : (List.insertionSort (fun a b => strLe a b = true) ((ks1 ++ ks2).dedup)).Perm
      ((ks1 ++ ks2).dedup) := List.perm_insertionSort _ _
  exact hperm.nodup_iff.mpr (List.nodup_dedup _)

theorem sortedUnionS_mem {ks1 ks2 : List String} {x : String} :
    x ∈ sortedUnionS ks1 ks2 ↔ x ∈ ks1 ++ ks2 := by
  have hperm : (List.insertionSort (fun a b => strLe a b = true) ((ks1 ++ ks2).dedup)).Perm
      ((ks1 ++ ks2).dedup) := List.perm_insertionSort _ _
  constructor
  · intro h
    exact (List.mem_dedup).mp (hperm.mem_iff.mp h)
  · intro h
    exact hperm.mem_iff.mpr ((List.mem_dedup).mpr h)

theorem flatMap_single {α β : Type} (f : α → List β) :
    ∀ (U : List α) (K : α), U.Nodup → K ∈ U → (∀ x ∈ U, x ≠ K → f x = []) →
      U.flatMap f = f K := by
  intro U
  induction U with
  | nil => intro K _ hK _; simp at hK
  | cons a rest ih =>
    intro K hnd hK hother
    rcases List.mem_cons.mp hK with h | h
    · subst h
      have hrest : rest.flatMap f = [] := by
        apply flatMap_eq_nil_of
        intro x hx
        exact hother x (List.mem_cons_of_mem _ hx)
          (fun he => (List.nodup_cons.mp hnd).1 (he ▸ hx))
      simp [List.flatMap_cons, hrest]
    · have ha : f a = [] := hother a (List.mem_cons_self _ _)
        (fun he => (List.nodup_cons.mp hnd).1 (he ▸ h))
      simp only [List.flatMap_cons, ha, List.nil_append]
      exact ih K (List.nodup_cons.mp hnd).2 h
        (fun x hx hne => hother x (List.mem_cons_of_mem _ hx) hne)

theorem flatMap_pair {α β : Type} (f : α → List β) :
    ∀ (U : List α) (a b : α), U.Nodup → a ∈ U → b ∈ U → a ≠ b →
      (∀ x ∈ U, x ≠ a → x ≠ b → f x = []) →
      (U.flatMap f).Perm (f a ++ f b) := by
  intro U
  induction U with
  | nil => intro a b _ ha _ _ _; simp at ha
  | cons h rest ih =>
    intro a b hnd ha hb hab hother
    rcases List.mem_cons.mp ha with hha | hha
    · subst hha
      have hb' : b ∈ rest := by
        rcases List.mem_cons.mp hb with h' | h'
        · exact absurd h'.symm hab
        · exact h'
      have hrest : rest.flatMap f = f b := by
        apply flatMap_single f rest b (List.nodup_cons.mp hnd).2 hb'
        intro x hx hne
        exact hother x (List.mem_cons_of_mem _ hx)
          (fun he => (List.nodup_cons.mp hnd).1 (he ▸ hx)) hne
      rw [List.flatMap_cons, hrest]
    · rcases List.mem_cons.mp hb with hhb | hhb
      · subst hhb
        have ha' : a ∈ rest := hha
        have hrest : rest.flatMap f = f a := by
          apply flatMap_single f rest a (List.nodup_cons.mp hnd).2 ha'
          intro x hx hne
          exact hother x (List.mem_cons_of_mem _ hx) hne
            (fun he => (List.nodup_cons.mp hnd).1 (he ▸ hx))
        rw [List.flatMap_cons, hrest]
        exact List.perm_append_comm
      · have hh : f h = [] := hother h (List.mem_cons_self _ _)
          (fun he => (List.nodup_cons.mp hnd).1 (he ▸ hha))
          (fun he => (List.nodup_cons.mp hnd).1 (he ▸ hhb))
        rw [List.flatMap_cons, hh, List.nil_append]
        exact ih a b (List.nodup_cons.mp hnd).2 hha hhb hab
          (fun x hx h1 h2 => hother x (List.mem_cons_of_mem _ hx) h1 h2)

theorem jeqO_false_of_entry : ∀ {o1 : List (String × J)} (o2 : List (String × J))
    {k : String} {v w : J}, (k, v) ∈ o1 → jlookup o2 k = some w → jeq v w = false →
    jeqO o1 o2 = false := by
  intro o1
  induction o1 with
  | nil => intro o2 k v w hm _ _; simp at hm
  | cons e rest ih =>
    intro o2 k v w hm hl hne
    rcases List.mem_cons.mp hm with he | he
    · subst he
      show ((match jlookup o2 k with
             | some w' => jeq v w'
             | none => false) && jeqO rest o2) = false
      rw [hl]
      simp only [hne, Bool.false_and]
    · obtain ⟨k', v'⟩ := e
      show ((match jlookup o2 k' with
             | some w' => jeq v' w'
             | none => false) && jeqO rest o2) = false
      rw [ih o2 he hl hne]
      exact Bool.and_false _

theorem jeq_obj_false {o1 o2 : List (String × J)} (h : jeqO o1 o2 = false) :
    jeq (J.obj o1) (J.obj o2) = false := by
  show ((o1.length == o2.length) && jeqO o1 o2) = false
  rw [h]
  exact Bool.and_false _

theorem jeqL_middle_false : ∀ (P : List J) {a b : J} (S S' : List J), jeq a b = false →
    jeqL (P ++ a :: S) (P ++ b :: S') = false
  | [], a, b, S, S', h => by
    show (jeq a b && jeqL S S') = false
    rw [h]
    exact Bool.false_and _
  | p :: P', a, b, S, S', h => by
    show (jeq p p && jeqL (P' ++ a :: S) (P' ++ b :: S')) = false
    rw [jeqL_middle_false P' S S' h]
    exact Bool.and_false _

theorem jeq_arr_false {l1 l2 : List J} (h : jeqL l1 l2 = false) :
    jeq (J.arr l1) (J.arr l2) = false := h

theorem str_beq_false {a b : String} (h : a ≠ b) : (a == b) = false :=
  beq_eq_false_iff_ne.mpr h

theorem jeq_str_str {a b : String} : jeq (J.str a) (J.str b) = (a == b) := rfl

/-- Replacing the value of one (present, non-volatile) key by an unequal
non-null value localizes the diff to that key: the record-level change list is
exactly the recursive comparison of the two values. -/
theorem fcr_setKey_localize (n : Nat) (o : List (String × J)) (K : String) (v1 v2 : J)
    (path : List String) (hw : jwf (J.obj o) = true) (hvol : volatileKey K = false)
    (hK : jlookup o K = some v1) (hn1 : v1.isNull = false) (hn2 : v2.isNull = false)
    (hne : jeq v1 v2 = false) :
    fcr (n + 1) (J.obj o) (J.obj (setKey o K v2)) path = fcr n v1 v2 (path ++ [K]) := by
  have hwO : jwfO o = true := by
    have h' : nodupKeys o = true ∧ jwfO o = true := by
      simpa [jwf, Bool.and_eq_true] using hw
    exact h'.2
  simp only [fcr]
  rw [setKey_keysOf o K v2 v1 hK]
  have hKmem : K ∈ sortedUnionS (keysOf o) (keysOf o) :=
    sortedUnionS_mem.mpr (List.mem_append.mpr (Or.inl (lookup_mem_keysOf hK)))
  rw [flatMap_single _ _ K (sortedUnionS_nodup _ _) hKmem]
  · rw [if_neg (by simp [hvol])]
    have hd1 : dgetJ o K = v1 := by simp [dgetJ, hK]
    have hd2 : dgetJ (setKey o K v2) K = v2 := by simp [dgetJ, setKey_lookup_self]
    rw [hd1, hd2, hn1, hn2]
    simp only [Bool.false_and, Bool.not_false, Bool.and_false, Bool.false_eq_true,
      if_neg (by simp : ¬ False), if_neg (by rw [hne]; simp : ¬ jeq v1 v2 = true)]
  · intro x hx hxK
    by_cases hv : volatileKey x = true
    · rw [if_pos hv]
    · rw [if_neg hv]
      have hlk : jlookup (setKey o K v2) x = jlookup o x := setKey_lookup_ne o K x v2 hxK
      cases hox : jlookup o x with
      | none =>
        have h1 : dgetJ o x = J.null := by simp [dgetJ, hox]
        have h2 : dgetJ (setKey o K v2) x = J.null := by simp [dgetJ, hlk, hox]
        rw [h1, h2]
        simp [J.isNull, jeq]
      | some v =>
        have h1 : dgetJ o x = v := by simp [dgetJ, hox]
        have h2 : dgetJ (setKey o K v2) x = v := by simp [dgetJ, hlk, hox]
        rw [h1, h2]
        have hjv : jeq v v = true := jeq_refl v (jwfO_forall hwO x v (jlookup_mem hox))
        simp [hjv]

/-- The identity-key values (all strings) of a list of items, in order. -/
def namesOf (u : String) (l : List J) : List String :=
  l.filterMap (fun i =>
    match itemKey i u with
    | some (.str s) => some s
    | _ => none)

theorem namesOf_nil (u : String) : namesOf u [] = [] := rfl

theorem namesOf_cons {u : String} {i : J} {s : String} (l : List J)
    (h : itemKey i u = some (J.str s)) : namesOf u (i :: l) = s :: namesOf u l := by
  simp [namesOf, List.filterMap_cons, h]

theorem namesOf_append (u : String) (l1 l2 : List J) :
    namesOf u (l1 ++ l2) = namesOf u l1 ++ namesOf u l2 := by
  simp [namesOf, List.filterMap_append]

theorem isStrKey_exists {i : J} {u : String} (h : isStrKey i u = true) :
    ∃ s, itemKey i u = some (J.str s) := by
  unfold isStrKey at h
  cases hik : itemKey i u with
  | none => rw [hik] at h; simp at h
  | some v =>
    cases v with
    | str s => exact ⟨s, rfl⟩
    | null => rw [hik] at h; simp at h
    | num q => rw [hik] at h; simp at h
    | arr l => rw [hik] at h; simp at h
    | obj o => rw [hik] at h; simp at h

theorem mem_namesOf {u : String} {l : List J} {i : J} {s : String}
    (hi : i ∈ l) (h : itemKey i u = some (J.str s)) : s ∈ namesOf u l :=
  List.mem_filterMap.mpr ⟨i, hi, by rw [h]⟩

theorem mapInsert_append_of : ∀ {m : List (J × J)} {k : J} (v : J),
    (∀ e ∈ m, jeq e.1 k = false) → mapInsert m k v = m ++ [(k, v)] := by
  intro m
  induction m with
  | nil => intro k v _; rfl
  | cons e rest ih =>
    intro k v h
    obtain ⟨k', v'⟩ := e
    have hk' : jeq k' k = false := h (k', v') (List.mem_cons_self _ _)
    simp only [mapInsert, hk', Bool.false_eq_true, if_neg (by simp : ¬ False)]
    rw [ih v (fun e he => h e (List.mem_cons_of_mem _ he))]
    rfl

theorem foldl_bmStep_mapped (u : String) : ∀ (l : List J) (acc : List (J × J)),
    (∀ i ∈ l, isStrKey i u = true) → (namesOf u l).Nodup →
    (∀ e ∈ acc, ∀ i ∈ l, jeq e.1 ((itemKey i u).getD J.null) = false) →
    l.foldl (bmStep u) acc = acc ++ l.map (fun i => ((itemKey i u).getD J.null, i)) := by
  intro l
  induction l with
  | nil => intro acc _ _ _; simp
  | cons i0 rest ih =>
    intro acc hstr hnd hacc
    obtain ⟨s0, hs0⟩ := isStrKey_exists (hstr i0 (List.mem_cons_self _ _))
    have hnames : namesOf u (i0 :: rest) = s0 :: namesOf u rest := namesOf_cons rest hs0
    have hnd' : s0 ∉ namesOf u rest ∧ (namesOf u rest).Nodup := by
      rw [hnames] at hnd
      exact List.nodup_cons.mp hnd
    have hstep : bmStep u acc i0 = acc ++ [(J.str s0, i0)] := by
      unfold bmStep
      rw [hs0]
      exact mapInsert_append_of i0 (fun e he => by
        have := hacc e he i0 (List.mem_cons_self _ _)
        rw [hs0] at this
        simpa using this)
    rw [List.foldl_cons, hstep]
    rw [ih (acc ++ [(J.str s0, i0)])
      (fun i hi => hstr i (List.mem_cons_of_mem _ hi)) hnd'.2 ?_]
    · simp only [List.map_cons, hs0, Option.getD_some, List.append_assoc,
        List.singleton_append]
    · intro e he i hi
      rcases List.mem_append.mp he with he' | he'
      · exact hacc e he' i (List.mem_cons_of_mem _ hi)
      · have he0 : e = (J.str s0, i0) := by simpa using he'
        subst he0
        obtain ⟨si, hsi⟩ := isStrKey_exists (hstr i (List.mem_cons_of_mem _ hi))
        rw [hsi]
        simp only [Option.getD_some]
        show jeq (J.str s0) (J.str si) = false
        rw [jeq_str_str]
        exact str_beq_false (fun he2 => hnd'.1 (he2 ▸ mem_namesOf hi hsi))

theorem buildMap_mapped (u : String) (l : List J)
    (hstr : ∀ i ∈ l, isStrKey i u = true) (hnd : (namesOf u l).Nodup) :
    buildMap u l = l.map (fun i => ((itemKey i u).getD J.null, i)) := by
  unfold buildMap
  rw [foldl_bmStep_mapped u l [] hstr hnd (by intro e he; simp at he)]
  rfl

theorem mapped_keys (u : String) : ∀ (l : List J), (∀ i ∈ l, isStrKey i u = true) →
    (l.map (fun i => ((itemKey i u).getD J.null, i))).map Prod.fst
      = (namesOf u l).map J.str := by
  intro l
  induction l with
  | nil => intro _; rfl
  | cons i0 rest ih =>
    intro hstr
    obtain ⟨s0, hs0⟩ := isStrKey_exists (hstr i0 (List.mem_cons_self _ _))
    rw [List.map_cons, List.map_cons, namesOf_cons rest hs0, List.map_cons]
    rw [ih (fun i hi => hstr i (List.mem_cons_of_mem _ hi))]
    simp [hs0]

theorem mlookup_append_some : ∀ {m1 : List (J × J)} (m2 : List (J × J)) {k v : J},
    mlookup m1 k = some v → mlookup (m1 ++ m2) k = some v := by
  intro m1
  induction m1 with
  | nil => intro m2 k v h; simp [mlookup] at h
  | cons e rest ih =>
    intro m2 k v h
    obtain ⟨k', v'⟩ := e
    by_cases hk : jeq k' k = true
    · simp only [mlookup, if_pos hk] at h
      simp only [List.cons_append, mlookup, if_pos hk]
      exact h
    · simp only [mlookup, if_neg hk] at h
      simp only [List.cons_append, mlookup, if_neg hk]
      exact ih m2 h

theorem mlookup_append_none : ∀ {m1 : List (J × J)} (m2 : List (J × J)) {k : J},
    mlookup m1 k = none → mlookup (m1 ++ m2) k = mlookup m2 k := by
  intro m1
  induction m1 with
  | nil => intro m2 k _; rfl
  | cons e rest ih =>
    intro m2 k h
    obtain ⟨k', v'⟩ := e
    by_cases hk : jeq k' k = true
    · simp only [mlookup, if_pos hk] at h
      exact absurd h (by simp)
    · simp only [mlookup, if_neg hk] at h
      simp only [List.cons_append, mlookup, if_neg hk]
      exact ih m2 h

theorem mlookup_mapped_none (u : String) : ∀ (l : List J) (x : String),
    (∀ i ∈ l, isStrKey i u = true) → x ∉ namesOf u l →
    mlookup (l.map (fun i => ((itemKey i u).getD J.null, i))) (J.str x) = none := by
  intro l
  induction l with
  | nil => intro x _ _; rfl
  | cons i0 rest ih =>
    intro x hstr hx
    obtain ⟨s0, hs0⟩ := isStrKey_exists (hstr i0 (List.mem_cons_self _ _))
    have hne : s0 ≠ x := fun he => hx (by
      rw [namesOf_cons rest hs0]
      exact he ▸ List.mem_cons_self _ _)
    simp only [List.map_cons, mlookup, hs0, Option.getD_some]
    rw [if_neg (by rw [jeq_str_str, str_beq_false hne]; simp)]
    exact ih x (fun i hi => hstr i (List.mem_cons_of_mem _ hi))
      (fun hmem => hx (by rw [namesOf_cons rest hs0]; exact List.mem_cons_of_mem _ hmem))

theorem mlookup_mapped_first (u : String) : ∀ (l : List J) (x : String),
    (∀ i ∈ l, isStrKey i u = true) → x ∈ namesOf u l →
    ∃ i ∈ l, itemKey i u = some (J.str x) ∧
      mlookup (l.map (fun i => ((itemKey i u).getD J.null, i))) (J.str x) = some i := by
  intro l
  induction l with
  | nil => intro x _ hx; simp [namesOf] at hx
  | cons i0 rest ih =>
    intro x hstr hx
    obtain ⟨s0, hs0⟩ := isStrKey_exists (hstr i0 (List.mem_cons_self _ _))
    by_cases he : s0 = x
    · subst he
      refine ⟨i0, List.mem_cons_self _ _, hs0, ?_⟩
      simp only [List.map_cons, mlookup, hs0, Option.getD_some]
      rw [if_pos (by rw [jeq_str_str]; exact beq_self_eq_true s0)]
    · have hx' : x ∈ namesOf u rest := by
        rw [namesOf_cons rest hs0] at hx
        rcases List.mem_cons.mp hx with h' | h'
        · exact absurd h'.symm he
        · exact h'
      obtain ⟨i, hi, hik, hml⟩ := ih x (fun i hi => hstr i (List.mem_cons_of_mem _ hi)) hx'
      refine ⟨i, List.mem_cons_of_mem _ hi, hik, ?_⟩
      simp only [List.map_cons, mlookup, hs0, Option.getD_some]
      rw [if_neg (by rw [jeq_str_str, str_beq_false he]; simp)]
      exact hml

theorem jeq_str_right : ∀ (x : J) (a : String), jeq x (J.str a) = true ↔ x = J.str a := by
  intro x a
  cases x with
  | str b =>
    constructor
    · intro h
      have : b = a := by simpa [jeq_str_str] using h
      rw [this]
    · intro h
      have hb : b = a := J.str.inj h
      rw [hb, jeq_str_str]
      exact beq_self_eq_true a
  | null => constructor <;> (intro h; simp [jeq] at h)
  | num q => constructor <;> (intro h; simp [jeq] at h)
  | arr l => constructor <;> (intro h; simp [jeq] at h)
  | obj o => constructor <;> (intro h; simp [jeq] at h)

theorem jdedupGo_str_nodup : ∀ (xs seen : List J), (∀ x ∈ xs, ∃ s, x = J.str s) →
    (jdedupGo seen xs).Nodup ∧ ∀ y ∈ jdedupGo seen xs, y ∉ seen := by
  intro xs
  induction xs with
  | nil => intro seen _; exact ⟨List.nodup_nil, by intro y hy; simp [jdedupGo] at hy⟩
  | cons x rest ih =>
    intro seen hstr
    obtain ⟨s, hs⟩ := hstr x (List.mem_cons_self _ _)
    by_cases hseen : (seen.any fun y => jeq y x) = true
    · simp only [jdedupGo, if_pos hseen]
      exact ih seen (fun z hz => hstr z (List.mem_cons_of_mem _ hz))
    · simp only [jdedupGo, if_neg hseen]
      have hrec := ih (x :: seen) (fun z hz => hstr z (List.mem_cons_of_mem _ hz))
      have hxnot : x ∉ jdedupGo (x :: seen) rest := fun hmem =>
        (hrec.2 x hmem) (List.mem_cons_self _ _)
      refine ⟨List.nodup_cons.mpr ⟨hxnot, hrec.1⟩, ?_⟩
      intro y hy
      rcases List.mem_cons.mp hy with hy' | hy'
      · subst hy'
        intro hxs
        apply hseen
        apply List.any_eq_true.mpr
        refine ⟨y, hxs, ?_⟩
        rw [hs]
        rw [(jeq_str_right _ s).mpr rfl]
      · intro hys
        exact (hrec.2 y hy') (List.mem_cons_of_mem _ hys)

theorem jdedupGo_mem_str : ∀ (xs seen : List J) (x : J), x ∈ xs → (∃ s, x = J.str s) →
    x ∈ jdedupGo seen xs ∨ x ∈ seen := by
  intro xs
  induction xs with
  | nil => intro seen x hx _; simp at hx
  | cons y rest ih =>
    intro seen x hx hs
    obtain ⟨s, hs'⟩ := hs
    by_cases hseen : (seen.any fun z => jeq z y) = true
    · simp only [jdedupGo, if_pos hseen]
      rcases List.mem_cons.mp hx with hx' | hx'
      · subst hx'
        obtain ⟨z, hz, hjz⟩ := List.any_eq_true.mp hseen
        have hzx : z = x := by
          rw [hs'] at hjz ⊢
          exact (jeq_str_right z s).mp hjz
        exact Or.inr (hzx ▸ hz)
      · exact ih seen x hx' ⟨s, hs'⟩
    · simp only [jdedupGo, if_neg hseen]
      rcases List.mem_cons.mp hx with hx' | hx'
      · exact Or.inl (hx' ▸ List.mem_cons_self _ _)
      · rcases ih (y :: seen) x hx' ⟨s, hs'⟩ with h | h
        · exact Or.inl (List.mem_cons_of_mem _ h)
        · rcases List.mem_cons.mp h with h' | h'
          · exact Or.inl (h' ▸ List.mem_cons_self _ _)
          · exact Or.inr h'

theorem sortedUnionJ_nodup_str (ks1 ks2 : List J)
    (hstr : ∀ x ∈ ks1 ++ ks2, ∃ s, x = J.str s) : (sortedUnionJ ks1 ks2).Nodup := by
  have hperm : (List.insertionSort (fun a b => jle a b = true) (jdedupGo [] (ks1 ++ ks2))).Perm
      (jdedupGo [] (ks1 ++ ks2)) := List.perm_insertionSort _ _
  exact hperm.nodup_iff.mpr (jdedupGo_str_nodup (ks1 ++ ks2) [] hstr).1

theorem sortedUnionJ_mem_str {ks1 ks2 : List J} {x : J} (hx : x ∈ ks1 ++ ks2)
    (hs : ∃ s, x = J.str s) : x ∈ sortedUnionJ ks1 ks2 := by
  have hperm : (List.insertionSort (fun a b => jle a b = true) (jdedupGo [] (ks1 ++ ks2))).Perm
      (jdedupGo [] (ks1 ++ ks2)) := List.perm_insertionSort _ _
  apply hperm.mem_iff.mpr
  rcases jdedupGo_mem_str (ks1 ++ ks2) [] x hx hs with h | h
  · exact h
  · simp at h

/-- Renaming the identity key of one item of an identity-keyed list turns the
"smart" list comparison into exactly one `removed` (old name) and one `added`
(new name) entry — never a `modified` one. -/
theorem fcr_rename_perm (n : Nat) (p : List String) (u : String)
    (P S : List J) (oA : List (String × J)) (A B : String)
    (hku : listItemKey p = some u)
    (hA : jlookup oA u = some (J.str A))
    (hAB : A ≠ B)
    (hstr : ((P ++ J.obj oA :: S).all fun i => isStrKey i u) = true)
    (hnd : (namesOf u (P ++ J.obj oA :: S)).Nodup)
    (hBf : B ∉ namesOf u (P ++ S))
    (hwl : jwfL (P ++ J.obj oA :: S) = true) :
    (fcr (n + 1) (J.arr (P ++ J.obj oA :: S))
        (J.arr (P ++ J.obj (setKey oA u (J.str B)) :: S)) p).Perm
      [⟨p ++ [segFor p (J.str A)], .removed, some (J.obj oA), none⟩,
       ⟨p ++ [segFor p (J.str B)], .added, none, some (J.obj (setKey oA u (J.str B)))⟩] := by
  have hAkey : itemKey (J.obj oA) u = some (J.str A) := hA
  have hBkey : itemKey (J.obj (setKey oA u (J.str B))) u = some (J.str B) :=
    setKey_lookup_self oA u (J.str B)
  have hstrA : isStrKey (J.obj oA) u = true := by unfold isStrKey; rw [hAkey]
  have hstrB : isStrKey (J.obj (setKey oA u (J.str B))) u = true := by
    unfold isStrKey; rw [hBkey]
  have hstr1 : ∀ i ∈ P ++ J.obj oA :: S, isStrKey i u = true := List.all_eq_true.mp hstr
  have hstrP : ∀ i ∈ P, isStrKey i u = true :=
    fun i hi => hstr1 i (List.mem_append.mpr (Or.inl hi))
  have hstrS : ∀ i ∈ S, isStrKey i u = true :=
    fun i hi => hstr1 i (List.mem_append.mpr (Or.inr (List.mem_cons_of_mem _ hi)))
  have hstr2 : ∀ i ∈ P ++ J.obj (setKey oA u (J.str B)) :: S, isStrKey i u = true := by
    intro i hi
    rcases List.mem_append.mp hi with h | h
    · exact hstrP i h
    · rcases List.mem_cons.mp h with h' | h'
      · rw [h']; exact hstrB
      · exact hstrS i h'
  have hN1 : namesOf u (P ++ J.obj oA :: S) = namesOf u P ++ A :: namesOf u S := by
    rw [namesOf_append, namesOf_cons S hAkey]
  have hN2 : namesOf u (P ++ J.obj (setKey oA u (J.str B)) :: S)
      = namesOf u P ++ B :: namesOf u S := by
    rw [namesOf_append, namesOf_cons S hBkey]
  have hndP : (namesOf u P).Nodup ∧ (A :: namesOf u S).Nodup ∧
      (namesOf u P).Disjoint (A :: namesOf u S) := by
    rw [hN1] at hnd
    exact List.nodup_append.mp hnd
  have hAnP : A ∉ namesOf u P := fun h => hndP.2.2 h (List.mem_cons_self _ _)
  have hAnS : A ∉ namesOf u S := (List.nodup_cons.mp hndP.2.1).1
  have hndS : (namesOf u S).Nodup := (List.nodup_cons.mp hndP.2.1).2
  have hBnP : B ∉ namesOf u P := by
    rw [namesOf_append] at hBf
    exact fun h => hBf (List.mem_append.mpr (Or.inl h))
  have hBnS : B ∉ namesOf u S := by
    rw [namesOf_append] at hBf
    exact fun h => hBf (List.mem_append.mpr (Or.inr h))
  have hnd2 : (namesOf u (P ++ J.obj (setKey oA u (J.str B)) :: S)).Nodup := by
    rw [hN2]
    apply List.nodup_append.mpr
    refine ⟨hndP.1, List.nodup_cons.mpr ⟨hBnS, hndS⟩, ?_⟩
    intro a ha ha'
    rcases List.mem_cons.mp ha' with h' | h'
    · exact hBnP (h' ▸ ha)
    · exact hndP.2.2 ha (List.mem_cons_of_mem _ h')
  have hwP : ∀ i ∈ P, jwf i = true :=
    fun i hi => jwfL_forall hwl i (List.mem_append.mpr (Or.inl hi))
  have hwS : ∀ i ∈ S, jwf i = true :=
    fun i hi => jwfL_forall hwl i (List.mem_append.mpr (Or.inr (List.mem_cons_of_mem _ hi)))
  simp only [fcr]
  rw [hku]
  dsimp only
  have hall : ((P ++ J.obj oA :: S ++ (P ++ J.obj (setKey oA u (J.str B)) :: S)).all
      fun item => (itemKey item u).isSome) = true := by
    apply List.all_eq_true.mpr
    intro i hi
    rcases List.mem_append.mp hi with h | h
    · exact isStrKey_isSome (hstr1 i (by simpa using h))
    · exact isStrKey_isSome (hstr2 i h)
  rw [if_pos (by simpa using hall)]
  rw [buildMap_mapped u _ hstr1 hnd, buildMap_mapped u _ hstr2 hnd2]
  rw [mapped_keys u _ hstr1, mapped_keys u _ hstr2]
  have hmap1 : (P ++ J.obj oA :: S).map (fun i => ((itemKey i u).getD J.null, i))
      = P.map (fun i => ((itemKey i u).getD J.null, i)) ++ (J.str A, J.obj oA) ::
        S.map (fun i => ((itemKey i u).getD J.null, i)) := by
    rw [List.map_append, List.map_cons]
    have : ((itemKey (J.obj oA) u).getD J.null, J.obj oA) = (J.str A, J.obj oA) := by
      rw [hAkey]; rfl
    rw [this]
  have hmap2 : (P ++ J.obj (setKey oA u (J.str B)) :: S).map
        (fun i => ((itemKey i u).getD J.null, i))
      = P.map (fun i => ((itemKey i u).getD J.null, i)) ++
        (J.str B, J.obj (setKey oA u (J.str B))) ::
        S.map (fun i => ((itemKey i u).getD J.null, i)) := by
    rw [List.map_append, List.map_cons]
    have : ((itemKey (J.obj (setKey oA u (J.str B))) u).getD J.null,
        J.obj (setKey oA u (J.str B))) = (J.str B, J.obj (setKey oA u (J.str B))) := by
      rw [hBkey]; rfl
    rw [this]
  have hml1A : mlookup ((P ++ J.obj oA :: S).map
      (fun i => ((itemKey i u).getD J.null, i))) (J.str A) = some (J.obj oA) := by
    rw [hmap1, mlookup_append_none _ (mlookup_mapped_none u P A hstrP hAnP)]
    show (if jeq (J.str A) (J.str A) = true then some (J.obj oA) else _) = _
    rw [if_pos (by rw [jeq_str_str]; exact beq_self_eq_true A)]
  have hml2A : mlookup ((P ++ J.obj (setKey oA u (J.str B)) :: S).map
      (fun i => ((itemKey i u).getD J.null, i))) (J.str A) = none := by
    rw [hmap2, mlookup_append_none _ (mlookup_mapped_none u P A hstrP hAnP)]
    show (if jeq (J.str B) (J.str A) = true then _ else
      mlookup (S.map (fun i => ((itemKey i u).getD J.null, i))) (J.str A)) = _
    rw [if_neg (by rw [jeq_str_str, str_beq_false (fun h => hAB h.symm)]; simp)]
    exact mlookup_mapped_none u S A hstrS hAnS
  have hml1B : mlookup ((P ++ J.obj oA :: S).map
      (fun i => ((itemKey i u).getD J.null, i))) (J.str B) = none := by
    rw [hmap1, mlookup_append_none _ (mlookup_mapped_none u P B hstrP hBnP)]
    show (if jeq (J.str A) (J.str B) = true then _ else
      mlookup (S.map (fun i => ((itemKey i u).getD J.null, i))) (J.str B)) = _
    rw [if_neg (by rw [jeq_str_str, str_beq_false hAB]; simp)]
    exact mlookup_mapped_none u S B hstrS hBnS
  have hml2B : mlookup ((P ++ J.obj (setKey oA u (J.str B)) :: S).map
      (fun i => ((itemKey i u).getD J.null, i))) (J.str B)
      = some (J.obj (setKey oA u (J.str B))) := by
    rw [hmap2, mlookup_append_none _ (mlookup_mapped_none u P B hstrP hBnP)]
    show (if jeq (J.str B) (J.str B) = true then some (J.obj (setKey oA u (J.str B)))
      else _) = _
    rw [if_pos (by rw [jeq_str_str]; exact beq_self_eq_true B)]
  have hcommon : ∀ y : String, y ∈ namesOf u P ∨ y ∈ namesOf u S →
      ∃ i, (i ∈ P ∨ i ∈ S) ∧
        mlookup ((P ++ J.obj oA :: S).map
          (fun i => ((itemKey i u).getD J.null, i))) (J.str y) = some i ∧
        mlookup ((P ++ J.obj (setKey oA u (J.str B)) :: S).map
          (fun i => ((itemKey i u).getD J.null, i))) (J.str y) = some i := by
    intro y hy
    rcases hy with hy | hy
    · obtain ⟨i, hi, _, hml⟩ := mlookup_mapped_first u P y hstrP hy
      refine ⟨i, Or.inl hi, ?_, ?_⟩
      · rw [hmap1, mlookup_append_some _ hml]
      · rw [hmap2, mlookup_append_some _ hml]
    · have hynP : y ∉ namesOf u P := fun h => hndP.2.2 h (List.mem_cons_of_mem _ hy)
      have hyA : y ≠ A := fun h => hAnS (h ▸ hy)
      have hyB : y ≠ B := fun h => hBnS (h ▸ hy)
      obtain ⟨i, hi, _, hml⟩ := mlookup_mapped_first u S y hstrS hy
      refine ⟨i, Or.inr hi, ?_, ?_⟩
      · rw [hmap1, mlookup_append_none _ (mlookup_mapped_none u P y hstrP hynP)]
        show (if jeq (J.str A) (J.str y) = true then _ else
          mlookup (S.map (fun i => ((itemKey i u).getD J.null, i))) (J.str y)) = _
        rw [if_neg (by rw [jeq_str_str, str_beq_false (fun h => hyA h.symm)]; simp)]
        exact hml
      · rw [hmap2, mlookup_append_none _ (mlookup_mapped_none u P y hstrP hynP)]
        show (if jeq (J.str B) (J.str y) = true then _ else
          mlookup (S.map (fun i => ((itemKey i u).getD J.null, i))) (J.str y)) = _
        rw [if_neg (by rw [jeq_str_str, str_beq_false (fun h => hyB h.symm)]; simp)]
        exact hml
  refine (flatMap_pair _ _ (J.str A) (J.str B) ?_ ?_ ?_ ?_ ?_).trans ?_
  · apply sortedUnionJ_nodup_str
    intro x hx
    rcases List.mem_append.mp hx with h | h
    · obtain ⟨s, _, hs⟩ := List.mem_map.mp h
      exact ⟨s, hs.symm⟩
    · obtain ⟨s, _, hs⟩ := List.mem_map.mp h
      exact ⟨s, hs.symm⟩
  · apply sortedUnionJ_mem_str _ ⟨A, rfl⟩
    apply List.mem_append.mpr
    apply Or.inl
    apply List.mem_map.mpr
    exact ⟨A, by rw [hN1]; exact List.mem_append.mpr (Or.inr (List.mem_cons_self _ _)), rfl⟩
  · apply sortedUnionJ_mem_str _ ⟨B, rfl⟩
    apply List.mem_append.mpr
    apply Or.inr
    apply List.mem_map.mpr
    exact ⟨B, by rw [hN2]; exact List.mem_append.mpr (Or.inr (List.mem_cons_self _ _)), rfl⟩
  · exact fun h => hAB (J.str.inj h)
  · intro x hx hxA hxB
    have hx' := sortedUnionJ_sub hx
    have hy : ∃ y : String, x = J.str y ∧ (y ∈ namesOf u P ∨ y ∈ namesOf u S) := by
      rcases hx' with h | h
      · obtain ⟨y, hyN, hys⟩ := List.mem_map.mp h
        refine ⟨y, hys.symm, ?_⟩
        rw [hN1] at hyN
        rcases List.mem_append.mp hyN with h' | h'
        · exact Or.inl h'
        · rcases List.mem_cons.mp h' with h'' | h''
          · exact absurd (by rw [← hys, h'']) hxA
          · exact Or.inr h''
      · obtain ⟨y, hyN, hys⟩ := List.mem_map.mp h
        refine ⟨y, hys.symm, ?_⟩
        rw [hN2] at hyN
        rcases List.mem_append.mp hyN with h' | h'
        · exact Or.inl h'
        · rcases List.mem_cons.mp h' with h'' | h''
          · exact absurd (by rw [← hys, h'']) hxB
          · exact Or.inr h''
    obtain ⟨y, hxy, hymem⟩ := hy
    subst hxy
    obtain ⟨i, hiPS, hm1, hm2⟩ := hcommon y hymem
    have hwi : jwf i = true := by
      rcases hiPS with h | h
      · exact hwP i h
      · exact hwS i h
    rw [hm1, hm2]
    dsimp only
    rw [if_pos (jeq_refl i hwi)]
  · dsimp only
    rw [hml1A, hml2A, hml1B, hml2B]
    dsimp only
    exact List.Perm.refl _

theorem jsizeO_lookup_le : ∀ {o : List (String × J)} {k : String} {v : J},
    jlookup o k = some v → jsize v ≤ jsizeO o := by
  intro o
  induction o with
  | nil => intro k v h; simp [jlookup] at h
  | cons e rest ih =>
    intro k v h
    obtain ⟨k', v'⟩ := e
    by_cases hk : k' = k
    · simp only [jlookup, if_pos hk] at h
      have : v' = v := by simpa using h
      subst this
      show jsize v' ≤ jsize v' + jsizeO rest
      exact Nat.le_add_right _ _
    · simp only [jlookup, if_neg hk] at h
      calc jsize v ≤ jsizeO rest := ih h
        _ ≤ jsize v' + jsizeO rest := Nat.le_add_left _ _

/-- C5: renaming one strength category's identity key
`value_strength_category` (from `A` to a fresh name `B`, all other data
unchanged) makes the diff report exactly one `removed` entry for the old name
and one `added` entry for the new name — no `modified` entry. -/
theorem C5_rename_removed_added (o m : List (String × J)) (P S : List J)
    (oA : List (String × J)) (A B : String)
    (hw : jwf (J.obj o) = true)
    (hmp : jlookup o "mechanical_properties" = some (J.obj m))
    (hsc : jlookup m "strength_category" = some (J.arr (P ++ J.obj oA :: S)))
    (hA : jlookup oA "value_strength_category" = some (J.str A))
    (hAB : A ≠ B)
    (hstr : ((P ++ J.obj oA :: S).all fun i => isStrKey i "value_strength_category") = true)
    (hnd : (namesOf "value_strength_category" (P ++ J.obj oA :: S)).Nodup)
    (hBf : B ∉ namesOf "value_strength_category" (P ++ S)) :
    (find_changes (J.obj o)
        (J.obj (setKey o "mechanical_properties" (J.obj (setKey m "strength_category"
          (J.arr (P ++ J.obj (setKey oA "value_strength_category" (J.str B)) :: S))))))).Perm
      [⟨["mechanical_properties", "strength_category",
          "strength_category[" ++ A ++ "]"], .removed, some (J.obj oA), none⟩,
       ⟨["mechanical_properties", "strength_category",
          "strength_category[" ++ B ++ "]"], .added, none,
          some (J.obj (setKey oA "value_strength_category" (J.str B)))⟩] := by
  have hwO : jwfO o = true := by
    have h' : nodupKeys o = true ∧ jwfO o = true := by
      simpa [jwf, Bool.and_eq_true] using hw
    exact h'.2
  have hwm : jwf (J.obj m) = true := jwfO_forall hwO _ _ (jlookup_mem hmp)
  have hwmO : jwfO m = true := by
    have h' : nodupKeys m = true ∧ jwfO m = true := by
      simpa [jwf, Bool.and_eq_true] using hwm
    exact h'.2
  have hwarr : jwf (J.arr (P ++ J.obj oA :: S)) = true :=
    jwfO_forall hwmO _ _ (jlookup_mem hsc)
  have hwl : jwfL (P ++ J.obj oA :: S) = true := by simpa [jwf] using hwarr
  have hneqAB : jeq (J.str A) (J.str B) = false := by
    rw [jeq_str_str]
    exact str_beq_false hAB
  have hneqItem : jeq (J.obj oA) (J.obj (setKey oA "value_strength_category" (J.str B)))
      = false :=
    jeq_obj_false (jeqO_false_of_entry _ (jlookup_mem hA)
      (setKey_lookup_self oA "value_strength_category" (J.str B)) hneqAB)
  have hneqArr : jeq (J.arr (P ++ J.obj oA :: S))
      (J.arr (P ++ J.obj (setKey oA "value_strength_category" (J.str B)) :: S)) = false :=
    jeq_arr_false (jeqL_middle_false P S S hneqItem)
  have hneqM : jeq (J.obj m) (J.obj (setKey m "strength_category"
      (J.arr (P ++ J.obj (setKey oA "value_strength_category" (J.str B)) :: S)))) = false :=
    jeq_obj_false (jeqO_false_of_entry _ (jlookup_mem hsc)
      (setKey_lookup_self m "strength_category" _) hneqArr)
  have hsz1 : jsize (J.obj m) ≤ jsizeO o := jsizeO_lookup_le hmp
  have hsz2 : jsize (J.arr (P ++ J.obj oA :: S)) ≤ jsizeO m := jsizeO_lookup_le hsc
  have he1 : jsize (J.obj o) = 1 + jsizeO o := rfl
  have he2 : jsize (J.obj m) = 1 + jsizeO m := rfl
  have he3 : jsize (J.arr (P ++ J.obj oA :: S))
      = 1 + jsizeL (P ++ J.obj oA :: S) := rfl
  obtain ⟨n0, hn0⟩ : ∃ n0, jsize (J.obj o) + 1 = n0 + 1 + 1 + 1 :=
    ⟨jsize (J.obj o) - 2, by omega⟩
  unfold find_changes
  rw [hn0]
  rw [fcr_setKey_localize (n0 + 1 + 1) o "mechanical_properties" (J.obj m)
    (J.obj (setKey m "strength_category"
      (J.arr (P ++ J.obj (setKey oA "value_strength_category" (J.str B)) :: S)))) []
    hw rfl hmp rfl rfl hneqM]
  rw [fcr_setKey_localize (n0 + 1) m "strength_category" (J.arr (P ++ J.obj oA :: S))
    (J.arr (P ++ J.obj (setKey oA "value_strength_category" (J.str B)) :: S))
    ([] ++ ["mechanical_properties"]) hwm rfl hsc rfl rfl hneqArr]
  exact fcr_rename_perm n0 ["mechanical_properties", "strength_category"]
    "value_strength_category" P S oA A B rfl hA hAB hstr hnd hBf hwl

def c5catA : List (String × J) :=
  [("value_strength_category", J.str "KP195"), ("yield_strength", J.num 195)]

def c5catC : List (String × J) :=
  [("value_strength_category", J.str "KP100"), ("yield_strength", J.num 100)]

def c5mech : List (String × J) :=
  [("strength_category", J.arr ([] ++ J.obj c5catA :: [J.obj c5catC]))]

def c5rec : List (String × J) :=
  [("material_id", J.str "m-005"), ("name", J.str "Steel 20"),
   ("mechanical_properties", J.obj c5mech)]

theorem C5_rename_removed_added_witness :
    (find_changes (J.obj c5rec)
        (J.obj (setKey c5rec "mechanical_properties" (J.obj (setKey c5mech
          "strength_category" (J.arr ([] ++ J.obj (setKey c5catA
            "value_strength_category" (J.str "KP245")) :: [J.obj c5catC]))))))).Perm
      [⟨["mechanical_properties", "strength_category",
          "strength_category[" ++ "KP195" ++ "]"], .removed, some (J.obj c5catA), none⟩,
       ⟨["mechanical_properties", "strength_category",
          "strength_category[" ++ "KP245" ++ "]"], .added, none,
          some (J.obj (setKey c5catA "value_strength_category" (J.str "KP245")))⟩] :=
  C5_rename_removed_added c5rec c5mech [] [J.obj c5catC] c5catA "KP195" "KP245"
    (by decide) rfl rfl rfl (by decide) (by decide) (by decide) (by decide)
